import Mathlib

/-!
Verification development for the Comment Chameleon editor extension.

The TypeScript sources are shallowly embedded: document text is a `List Char`
addressed by character offsets, the JavaScript regular expressions used by the
scanner and the completion analyzer are modelled operationally (leftmost-match
scanning with greedy/lazy quantifier backtracking made explicit), persisted
configuration is passed as explicit arguments, and the mutable extension state
(decoration-type cache, debounce timer) is threaded as an explicit state value.
-/

namespace CommentChameleon

/-! ## Generic list/char utilities shared by the embedded functions -/

/-- Number of leading characters of `l` satisfying `p`. -/
def leadingCount (p : Char → Bool) : List Char → Nat
  | [] => 0
  | c :: t => if p c then leadingCount p t + 1 else 0

/-- JavaScript regex `\s` character class (ECMAScript WhiteSpace and
LineTerminator code points). -/
def isJsWhitespace (c : Char) : Bool :=
  c == ' ' || c == '\t' || c == '\n' || c == '\r' ||
  c == (Char.ofNat 0x0b) || c == (Char.ofNat 0x0c) ||
  c == (Char.ofNat 0xa0) || c == (Char.ofNat 0x1680) ||
  (0x2000 ≤ c.toNat && c.toNat ≤ 0x200a) ||
  c == (Char.ofNat 0x2028) || c == (Char.ofNat 0x2029) ||
  c == (Char.ofNat 0x202f) || c == (Char.ofNat 0x205f) ||
  c == (Char.ofNat 0x3000) || c == (Char.ofNat 0xfeff)

/-- Length of the leading whitespace run of `l` (JS `\s*` greedy run). -/
def leadingWs (l : List Char) : Nat := leadingCount isJsWhitespace l

/-- Offset of the first non-whitespace character at or after `i`. -/
def skipWs (s : List Char) (i : Nat) : Nat := i + leadingWs (s.drop i)

/-- `pat` occurs literally at offset `i` of `s`. -/
def isPrefixAt (pat s : List Char) (i : Nat) : Bool := pat.isPrefixOf (s.drop i)

/-- Character of `s` at offset `i`, if in bounds. -/
def charAt (s : List Char) (i : Nat) : Option Char := (s.drop i).head?

/-- `String.prototype.indexOf`: offset of the first occurrence of `pat` in
`l` (returns `l.length` when absent; the embedded uses below only apply it
when `pat` is known to occur). -/
def indexOfList (pat : List Char) (l : List Char) : Nat :=
  if pat.isPrefixOf l then 0
  else
    match l with
    | [] => 0
    | _ :: t => indexOfList pat t + 1

/-- Case-insensitive character comparison used for the JS regex `i` flag. -/
def charEqCI (a b : Char) : Bool := a.toLower == b.toLower

/-- Case-insensitive literal prefix test (JS `i`-flag literal matching). -/
def isPrefixOfCI : List Char → List Char → Bool
  | [], _ => true
  | _ :: _, [] => false
  | a :: as, b :: bs => charEqCI a b && isPrefixOfCI as bs

/-- `pat` occurs case-insensitively at offset `i` of `s`. -/
def isPrefixAtCI (pat s : List Char) (i : Nat) : Bool := isPrefixOfCI pat (s.drop i)

/-- Charwise lower-casing (model of `String.prototype.toLowerCase`). -/
def listToLower (l : List Char) : List Char := l.map Char.toLower

/-- `String.prototype.toLowerCase` on a `String`, modelled charwise (the
executable counterpart of `String.toLower`, whose well-founded recursion
does not reduce in the kernel). -/
def strToLower (s : String) : String := String.mk (listToLower s.data)

/-- `String.prototype.includes`: `pat` occurs contiguously in `l`. -/
def containsSub (l pat : List Char) : Bool :=
  if pat.isPrefixOf l then true
  else
    match l with
    | [] => false
    | _ :: t => containsSub t pat

/-! ## Data model (src/types/index.ts) -/

/-- `CustomTag` from `src/types/index.ts`: one comment-tag definition.
Optional TS fields become `Option`s (`none` = `undefined`). -/
structure CustomTag where
  tag : String
  color : Option String := none
  strikethrough : Option Bool := none
  underline : Option Bool := none
  backgroundColor : Option String := none
  bold : Option Bool := none
  italic : Option Bool := none
  emoji : Option String := none
  useEmoji : Option Bool := none
  deriving DecidableEq, Repr

/-- `UserDefinedLanguage` from `src/types/index.ts`. -/
structure UserDefinedLanguage where
  languageName : String
  singleLinePrefix : String
  multiLinePrefix : String
  multiLineSuffix : String
  deriving DecidableEq, Repr

/-- `CommentContext` from `src/types/index.ts`; `commentPfx` embeds the
optional TS field `commentPrefix`. -/
structure CommentContext where
  shouldSuggest : Bool
  isNewComment : Bool
  partialTag : List Char
  commentPfx : Option (List Char) := none
  deriving DecidableEq, Repr

/-- `MultiLineCommentPattern` from `src/types/index.ts`. The source stores
`startDelimiterRegex`/`endDelimiterRegex` as regex strings of the form
`<escaped literal>\s*` and `<escaped literal>`; the embedding stores the
literal delimiters and applies the `\s*` in the matcher. -/
structure MultiLineCommentPattern where
  name : String
  startDelimiter : List Char
  endDelimiter : List Char
  tagAtStart : Bool
  deriving DecidableEq, Repr

/-! ## Configuration (src/config/index.ts) -/

/-- `PREDEFINED_COMMENT_TAGS` from `src/config/index.ts`. -/
def PREDEFINED_COMMENT_TAGS : List CustomTag := [
  { tag := "//", color := some "#6272a4", strikethrough := some false,
    underline := some false, backgroundColor := some "transparent" },
  { tag := "EXPLANATION:", color := some "#ff70b3", strikethrough := some false,
    underline := some false, backgroundColor := some "transparent", emoji := some "💬" },
  { tag := "TODO:", color := some "#ffc66d", strikethrough := some false,
    backgroundColor := some "transparent", emoji := some "📋" },
  { tag := "FIXME:", color := some "#ff6e6e", strikethrough := some false,
    backgroundColor := some "transparent", emoji := some "🔧" },
  { tag := "BUG:", color := some "#f8f8f2", strikethrough := some false,
    backgroundColor := some "#bb80ff", emoji := some "🐛" },
  { tag := "HACK:", color := some "#ffffa5", strikethrough := some false,
    backgroundColor := some "transparent", emoji := some "⚡" },
  { tag := "NOTE:", color := some "#94f0ff", strikethrough := some false,
    backgroundColor := some "transparent", emoji := some "📝" },
  { tag := "INFO:", color := some "#c798e6", strikethrough := some false,
    backgroundColor := some "transparent", emoji := some "ℹ️" },
  { tag := "IDEA:", color := some "#80ffce", strikethrough := some false,
    backgroundColor := some "transparent", emoji := some "💡" },
  { tag := "DEBUG:", color := some "#ff2975", strikethrough := some false,
    backgroundColor := some "transparent", emoji := some "🐞" },
  { tag := "WHY:", color := some "#ff9580", strikethrough := some false,
    backgroundColor := some "transparent", emoji := some "❓" },
  { tag := "WHAT_THIS_DO:", color := some "#FBBF24", strikethrough := some false,
    backgroundColor := some "transparent", emoji := some "🤔" },
  { tag := "CONTEXT:", color := some "#d8ff80", strikethrough := some false,
    backgroundColor := some "transparent", emoji := some "🌐" },
  { tag := "CRITICAL:", color := some "#FFFFFF", strikethrough := some false,
    backgroundColor := some "#9F1239", bold := some true, emoji := some "⚠️" },
  { tag := "REVIEW:", color := some "#A5B4FC", strikethrough := some false,
    backgroundColor := some "transparent", emoji := some "👁️" },
  { tag := "OPTIMIZE:", color := some "#4ADE80", strikethrough := some false,
    backgroundColor := some "transparent", emoji := some "🚀" },
  { tag := "SECTION:", color := some "#f1a18e", strikethrough := some false,
    backgroundColor := some "transparent", emoji := some "📑" },
  { tag := "NEXT STEP:", color := some "#ba6645", strikethrough := some false,
    backgroundColor := some "transparent", emoji := some "➡️" },
  { tag := "SECURITY:", color := some "#cff028", strikethrough := some false,
    backgroundColor := some "#44475a", emoji := some "🔒" },
  { tag := "PERFORMANCE:", color := some "#d7ffad", strikethrough := some false,
    backgroundColor := some "transparent", emoji := some "⏱️" },
  { tag := "DEPRECATED:", color := some "#8b8098", strikethrough := some true,
    backgroundColor := some "#44475a", emoji := some "⛔" },
  { tag := "API:", color := some "#c798e6", strikethrough := some false,
    backgroundColor := some "transparent", emoji := some "🔌" }
]

/-- `getMergedTags` from `src/config/index.ts`. The persisted custom-tag list
(`getCustomTagsFromConfig`) is passed explicitly; a malformed configuration
value is already normalised to `[]` by the caller in the source. -/
def getMergedTags (customTags : List CustomTag) : List CustomTag :=
  let predefinedTagsFiltered := PREDEFINED_COMMENT_TAGS.filter
    (fun predefined => !(customTags.any (fun custom => custom.tag == predefined.tag)))
  predefinedTagsFiltered ++ customTags

/-- `shouldUseEmoji` from `src/config/index.ts`; the global `useEmojis`
setting is passed explicitly. `!!tag.emoji` is JS truthiness: a present,
non-empty emoji string. -/
def shouldUseEmoji (globalEmojiSetting : Bool) (tag : CustomTag) : Bool :=
  let useEmoji := match tag.useEmoji with
    | some b => b
    | none => globalEmojiSetting
  useEmoji && (match tag.emoji with
    | some e => !(e == "")
    | none => false)

/-! ## Language syntax table (src/languages, provided outside src/ as an
unnamed source file: `getCommentPrefix`, `getCommentSuffix`,
`SINGLE_LINE_COMMENT_PREFIXES`) -/

/-- JS `x || d` on an optional string lookup result: `undefined` and the
empty string both fall back to the default. -/
def jsOrString (o : Option String) (d : String) : String :=
  match o with
  | some s => if s == "" then d else s
  | none => d

/-- Built-in single-line comment marker table inside `getCommentPrefix`. -/
def commentPrefixTable : List (String × String) := [
  ("python", "#"),
  ("javascript", "//"),
  ("typescript", "//"),
  ("c", "//"),
  ("cpp", "//"),
  ("csharp", "//"),
  ("java", "//"),
  ("html", "<!--"),
  ("xml", "<!--"),
  ("svg", "<!--")
]

/-- Built-in multi-line closing delimiter table inside `getCommentSuffix`. -/
def commentSuffixTable : List (String × String) := [
  ("html", "-->"),
  ("xml", "-->"),
  ("svg", "-->")
]

/-- Association-list lookup modelling a JS record index `table[key]`. -/
def lookupStr (table : List (String × String)) (key : String) : Option String :=
  match table.find? (fun e => e.1 == key) with
  | some e => some e.2
  | none => none

/-- `getCommentPrefix` from the language-support module. The persisted
user-defined language list is passed explicitly. -/
def getCommentPrefix (userLanguages : List UserDefinedLanguage)
    (languageId : String) : String :=
  match userLanguages.find?
      (fun lang => strToLower lang.languageName == strToLower languageId) with
  | some userLanguage => userLanguage.singleLinePrefix
  | none => jsOrString (lookupStr commentPrefixTable languageId) "//"

/-- `getCommentSuffix` from the language-support module. -/
def getCommentSuffix (userLanguages : List UserDefinedLanguage)
    (languageId : String) : String :=
  match userLanguages.find?
      (fun lang => strToLower lang.languageName == strToLower languageId) with
  | some userLanguage => userLanguage.multiLineSuffix
  | none => jsOrString (lookupStr commentSuffixTable languageId) ""

/-- `SINGLE_LINE_COMMENT_PREFIXES` from the language-support module. -/
def SINGLE_LINE_COMMENT_PREFIXES : List (List Char) :=
  ["//".toList, "#".toList, "--".toList]

/-! ## Decoration manager (src/decoration/index.ts) -/

/-- Lowercase hex digit, as produced by `JSON.stringify` escapes. -/
def hexDigitChar (n : Nat) : Char :=
  if n < 10 then Char.ofNat (48 + n) else Char.ofNat (87 + n)

/-- `JSON.stringify` escaping of one string character. -/
def jsonEscapeChar (c : Char) : String :=
  if c == Char.ofNat 34 then "\\\""
  else if c == '\\' then "\\\\"
  else if c == '\n' then "\\n"
  else if c == '\r' then "\\r"
  else if c == '\t' then "\\t"
  else if c == Char.ofNat 8 then "\\b"
  else if c == Char.ofNat 12 then "\\f"
  else if c.toNat < 32 then
    "\\u00" ++ String.mk [hexDigitChar (c.toNat / 16), hexDigitChar (c.toNat % 16)]
  else String.singleton c

/-- `JSON.stringify` of a string value. -/
def jsonQuote (s : String) : String :=
  "\"" ++ String.join (s.toList.map jsonEscapeChar) ++ "\""

/-- The fields of the cache-key object in `getDecorationTypeForTag`, in the
source's insertion order; `undefined` (absent) fields are omitted by
`JSON.stringify`. -/
def decorationKeyFields (tag : CustomTag) : List String :=
  (match tag.color with
    | some v => ["\"color\":" ++ jsonQuote v]
    | none => []) ++
  (match tag.backgroundColor with
    | some v => ["\"backgroundColor\":" ++ jsonQuote v]
    | none => []) ++
  (match tag.strikethrough with
    | some b => ["\"strikethrough\":" ++ (if b then "true" else "false")]
    | none => []) ++
  (match tag.underline with
    | some b => ["\"underline\":" ++ (if b then "true" else "false")]
    | none => []) ++
  (match tag.bold with
    | some b => ["\"bold\":" ++ (if b then "true" else "false")]
    | none => []) ++
  (match tag.italic with
    | some b => ["\"italic\":" ++ (if b then "true" else "false")]
    | none => [])

/-- The `decorationKey` computed in `getDecorationTypeForTag`:
`JSON.stringify` of the six visual attributes. -/
def decorationKey (tag : CustomTag) : String :=
  "\x7b" ++ String.intercalate "," (decorationKeyFields tag) ++ "\x7d"

/-- A VS Code color value: a plain color string or a `vscode.ThemeColor`. -/
inductive ColorValue where
  | plain (s : String)
  | themeColor (id : String)
  deriving DecidableEq, Repr

/-- The `vscode.DecorationRenderOptions` fields set by the source. -/
structure DecorationRenderOptions where
  color : Option ColorValue := none
  backgroundColor : Option String := none
  textDecoration : Option String := none
  fontWeight : Option String := none
  fontStyle : Option String := none
  deriving DecidableEq, Repr

/-- A renderer style handle (`vscode.TextEditorDecorationType`); the host's
`createTextEditorDecorationType` is modelled as allocating a fresh id. -/
structure TextEditorDecorationType where
  id : Nat
  options : DecorationRenderOptions
  deriving DecidableEq, Repr

/-- `ExtensionState` from `src/types/index.ts`: the decoration-type cache
(a map keyed by the serialized attributes) and the debounce timer handle.
The timer handle is modelled as the absolute time at which the pending scan
is scheduled to run; `nextHandleId` models the host's handle allocator. -/
structure ExtensionState where
  activeDecorationTypes : List (String × TextEditorDecorationType) := []
  decorationTimeout : Option Nat := none
  nextHandleId : Nat := 0
  deriving DecidableEq, Repr

/-- JS falsiness of the `options.color` value (absent or empty string). -/
def colorFalsy : Option ColorValue → Bool
  | none => true
  | some (ColorValue.plain s) => s == ""
  | some (ColorValue.themeColor _) => false

/-- JS falsiness of an optional string (absent or empty). -/
def stringFalsy : Option String → Bool
  | none => true
  | some s => s == ""

/-- `getDecorationTypeForTag` from `src/decoration/index.ts`: obtain-or-create
the cached style handle for a tag's visual attributes. -/
def getDecorationTypeForTag (tag : CustomTag) (state : ExtensionState) :
    TextEditorDecorationType × ExtensionState :=
  let decKey := decorationKey tag
  match state.activeDecorationTypes.find? (fun e => e.1 == decKey) with
  | some e => (e.2, state)
  | none =>
    let textDecoration :=
      if tag.strikethrough.getD false && tag.underline.getD false then
        "underline line-through"
      else if tag.strikethrough.getD false then "line-through"
      else if tag.underline.getD false then "underline"
      else ""
    let options : DecorationRenderOptions := {
      color := tag.color.map ColorValue.plain
      backgroundColor := tag.backgroundColor
      textDecoration := if textDecoration == "" then none else some textDecoration
      fontWeight := if tag.bold.getD false then some "bold" else none
      fontStyle := if tag.italic.getD false then some "italic" else none }
    let options :=
      if colorFalsy options.color && stringFalsy options.backgroundColor then
        { options with color := some (ColorValue.themeColor "editorCodeLens.foreground") }
      else options
    let decorationType : TextEditorDecorationType := ⟨state.nextHandleId, options⟩
    (decorationType,
      { state with
        activeDecorationTypes := (decKey, decorationType) :: state.activeDecorationTypes
        nextHandleId := state.nextHandleId + 1 })

/-- `triggerUpdateDecorations` from `src/decoration/index.ts`. `clearTimeout`
and `setTimeout(…, 500)` are modelled on the explicit timer slot of
`ExtensionState`; the returned boolean records whether
`updateDecorationsForEditor` ran synchronously during the call. -/
def triggerUpdateDecorations (now : Nat) (immediate : Bool)
    (state : ExtensionState) : ExtensionState × Bool :=
  let state := { state with decorationTimeout := none }
  if immediate then (state, true)
  else ({ state with decorationTimeout := some (now + 500) }, false)

/-! ## Comment tag scanner: single-line pass (src/decoration/index.ts,
`updateDecorationsForEditor`).

The JS regex `(\s*(//|\#|--)\s*)(tag)` with flags `gm` is modelled
operationally. Because no whitespace character can start a comment marker,
the backtracking greedy `\s*` forces the marker to sit at the end of the
maximal whitespace run, so a match attempt at a start offset is decided by
`tryMatchAt`; the `g`-flag `exec` loop finds the leftmost match at or after
`lastIndex` and resumes at the match end. -/

/-- Greedy `\s*` before the tag: largest `m ≤ fuel` with the tag literal at
`base + m` (the JS engine backtracks from the maximal whitespace run down). -/
def findTagPos (tag s : List Char) (base : Nat) : Nat → Option Nat
  | 0 => if isPrefixAt tag s base then some base else none
  | m + 1 =>
    if isPrefixAt tag s (base + (m + 1)) then some (base + (m + 1))
    else findTagPos tag s base m

/-- One match attempt of the single-line pattern with the match start fixed
at `i`: returns `(marker, tagOffset, matchEnd)` on success. -/
def tryMatchAt (tag s : List Char) (i : Nat) : Option (List Char × Nat × Nat) :=
  let k := skipWs s i
  match SINGLE_LINE_COMMENT_PREFIXES.find? (fun p => isPrefixAt p s k) with
  | none => none
  | some marker =>
    let markerEnd := k + marker.length
    match findTagPos tag s markerEnd (leadingWs (s.drop markerEnd)) with
    | none => none
    | some tagPos => some (marker, tagPos, tagPos + tag.length)

/-- Leftmost match of the single-line pattern at or after offset `i`:
`(matchIndex, marker, tagOffset, matchEnd)`. -/
def findMatchFrom (tag s : List Char) : Nat → Nat → Option (Nat × List Char × Nat × Nat)
  | 0, _ => none
  | fuel + 1, i =>
    match tryMatchAt tag s i with
    | some (marker, tagPos, e) => some (i, marker, tagPos, e)
    | none => findMatchFrom tag s fuel (i + 1)

/-- The `exec` loop of the single-line pass: all successive matches,
resuming each search at the previous match end. -/
def slMatches (tag s : List Char) : Nat → Nat → List (Nat × List Char × Nat × Nat)
  | 0, _ => []
  | fuel + 1, pos =>
    match findMatchFrom tag s (s.length + 1 - pos) pos with
    | none => []
    | some (i, marker, tagPos, e) => (i, marker, tagPos, e) :: slMatches tag s fuel e

/-- End offset (exclusive) of the source line containing offset `p`: the
offset of the first line-break character at or after `p`
(`editor.document.lineAt(position).range.end`). -/
def lineEnd (s : List Char) (p : Nat) : Nat :=
  p + leadingCount (fun c => !(c == '\n' || c == '\r')) (s.drop p)

/-- The single-line pass of `updateDecorationsForEditor` for one tag: each
match contributes the range from
`matchIndex + match[1].indexOf(match[2])` (the comment marker) to the end of
the line containing that start, kept when start ≤ end. -/
def singleLineRanges (tag s : List Char) : List (Nat × Nat) :=
  (slMatches tag s (s.length + 1) 0).filterMap fun m =>
    let i := m.1
    let marker := m.2.1
    let tagPos := m.2.2.1
    let group1 := (s.drop i).take (tagPos - i)
    let highlightStart := i + indexOfList marker group1
    let highlightEnd := lineEnd s highlightStart
    if highlightStart ≤ highlightEnd then some (highlightStart, highlightEnd) else none

/-! ## Comment tag scanner: multi-line pass (src/decoration/index.ts).

The JS regex `start(tag)([\s\S]*?)end` with flags `gm`, where `start` is an
escaped literal delimiter followed by `\s*` and `end` is an escaped literal
delimiter, is modelled operationally: the greedy `\s*` backtracks from the
maximal whitespace run after the opener, and the lazy `[\s\S]*?` makes the
closing delimiter the first occurrence at or after the tag end. -/

/-- `MULTI_LINE_COMMENT_PATTERNS` from `src/decoration/index.ts`. -/
def MULTI_LINE_COMMENT_PATTERNS : List MultiLineCommentPattern := [
  { name := "c-style", startDelimiter := "/*".toList,
    endDelimiter := "*/".toList, tagAtStart := true },
  { name := "html-style", startDelimiter := "<!--".toList,
    endDelimiter := "-->".toList, tagAtStart := true },
  { name := "python-triple-double-quotes",
    startDelimiter := List.replicate 3 (Char.ofNat 34),
    endDelimiter := List.replicate 3 (Char.ofNat 34), tagAtStart := true },
  { name := "python-triple-single-quotes",
    startDelimiter := List.replicate 3 (Char.ofNat 39),
    endDelimiter := List.replicate 3 (Char.ofNat 39), tagAtStart := true }
]

/-- First occurrence of the literal `pat` at or after offset `j` (the lazy
`[\s\S]*?` followed by the closing delimiter). -/
def firstFrom (pat s : List Char) : Nat → Nat → Option Nat
  | 0, _ => none
  | fuel + 1, j =>
    if isPrefixAt pat s j then some j else firstFrom pat s fuel (j + 1)

/-- Greedy `\s*` after the opener with backtracking: try the tag at
`openerEnd + m` for `m` from the whitespace-run length down to `0`; on a tag
hit, the block closes at the first closer occurrence at or after the tag end.
Returns `(tagOffset, matchEnd)`. -/
def tryTagGreedyML (tag closer s : List Char) (openerEnd : Nat) :
    Nat → Option (Nat × Nat)
  | 0 =>
    if isPrefixAt tag s openerEnd then
      match firstFrom closer s (s.length + 1 - (openerEnd + tag.length))
          (openerEnd + tag.length) with
      | some c => some (openerEnd, c + closer.length)
      | none => none
    else none
  | m + 1 =>
    if isPrefixAt tag s (openerEnd + (m + 1)) then
      match firstFrom closer s (s.length + 1 - (openerEnd + (m + 1) + tag.length))
          (openerEnd + (m + 1) + tag.length) with
      | some c => some (openerEnd + (m + 1), c + closer.length)
      | none => tryTagGreedyML tag closer s openerEnd m
    else tryTagGreedyML tag closer s openerEnd m

/-- One match attempt of the multi-line block pattern with the match start
fixed at `i`: returns the match end on success. -/
def tryMatchMLAt (tag opener closer s : List Char) (i : Nat) : Option Nat :=
  if isPrefixAt opener s i then
    let openerEnd := i + opener.length
    match tryTagGreedyML tag closer s openerEnd (leadingWs (s.drop openerEnd)) with
    | some (_, e) => some e
    | none => none
  else none

/-- Leftmost multi-line match at or after offset `i`: `(matchIndex, matchEnd)`. -/
def findMLFrom (tag opener closer s : List Char) : Nat → Nat → Option (Nat × Nat)
  | 0, _ => none
  | fuel + 1, i =>
    match tryMatchMLAt tag opener closer s i with
    | some e => some (i, e)
    | none => findMLFrom tag opener closer s fuel (i + 1)

/-- The `exec` loop of the multi-line pass for one delimiter pair. -/
def mlMatches (tag opener closer s : List Char) : Nat → Nat → List (Nat × Nat)
  | 0, _ => []
  | fuel + 1, pos =>
    match findMLFrom tag opener closer s (s.length + 1 - pos) pos with
    | none => []
    | some (i, e) => (i, e) :: mlMatches tag opener closer s fuel e

/-- The multi-line pass of `updateDecorationsForEditor` for one tag and one
pattern: each match contributes the range from the opening delimiter through
the matched closing delimiter; patterns with `tagAtStart = false` are
skipped by the source. -/
def multiLineRangesForPattern (tag : List Char) (pattern : MultiLineCommentPattern)
    (s : List Char) : List (Nat × Nat) :=
  if pattern.tagAtStart then
    mlMatches tag pattern.startDelimiter pattern.endDelimiter s (s.length + 1) 0
  else []

/-! ## Completion context analyzer (src/completion/context.ts).

All five patterns are `$`-anchored with the `i` flag; `String.match` finds
the leftmost start offset at which the pattern matches through to the end of
the text. Under the `i` flag the class `[A-Z_]` is `[A-Za-z_]` and `[^A-Z]`
excludes both cases. -/

/-- `[A-Z_]` under the JS `i` flag. -/
def isTagChar (c : Char) : Bool :=
  ('A' ≤ c && c ≤ 'Z') || ('a' ≤ c && c ≤ 'z') || c == '_'

/-- `[A-Z]` under the JS `i` flag (what `[^A-Z]` with `i` excludes). -/
def isAsciiLetter (c : Char) : Bool :=
  ('A' ≤ c && c ≤ 'Z') || ('a' ≤ c && c ≤ 'z')

/-- Leftmost-match scan: first offset `j` (ascending from the second
argument) at which the per-offset matcher succeeds. -/
def scanLeftmost {α : Type} (f : Nat → Option α) : Nat → Nat → Option α
  | 0, _ => none
  | fuel + 1, j =>
    match f j with
    | some r => some r
    | none => scanLeftmost f fuel (j + 1)

/-- Match attempt of `(pref)\s*([A-Z_]*)$` at start offset `j`: after the
literal prefix, the greedy `\s*` must take the whole whitespace run (no
`[A-Z_]` character is whitespace) and the greedy `[A-Z_]*` must reach the
end of the text. -/
def singleLineMatchAt (pref s : List Char) (j : Nat) : Option (List Char) :=
  if isPrefixAtCI pref s j then
    let rest := s.drop (j + pref.length)
    let g2 := rest.drop (leadingWs rest)
    if g2.all isTagChar then some g2 else none
  else none

/-- `patterns.singleLine` of `analyzeCommentContext`. -/
def matchSingleLine (pref s : List Char) : Option (List Char) :=
  scanLeftmost (singleLineMatchAt pref s) (s.length + 1) 0

/-- Match attempt of `(/\*|<!--)\s*([A-Z_]*)$` at start offset `j`; the two
alternatives start with distinct characters so at most one applies. Returns
(matched opener text, partial tag). -/
def multiLineStartMatchAt (s : List Char) (j : Nat) : Option (List Char × List Char) :=
  match ["/*".toList, "<!--".toList].find? (fun o => isPrefixAtCI o s j) with
  | some opener =>
    let rest := s.drop (j + opener.length)
    let g2 := rest.drop (leadingWs rest)
    if g2.all isTagChar then some ((s.drop j).take opener.length, g2) else none
  | none => none

/-- `patterns.multiLineStart` of `analyzeCommentContext`. -/
def matchMultiLineStart (s : List Char) : Option (List Char × List Char) :=
  scanLeftmost (multiLineStartMatchAt s) (s.length + 1) 0

/-- `\s+([A-Z_]{minLen,})$` from offset `p`: the greedy `\s+` backtracks
from the whitespace-run length `m` down to `1`; the trailing class run must
reach the end of the text with at least `minLen` characters. -/
def tryWsTag (s : List Char) (p : Nat) (minLen : Nat) : Nat → Option (List Char)
  | 0 => none
  | m + 1 =>
    let rest := s.drop (p + m + 1)
    if rest.all isTagChar && decide (minLen ≤ rest.length) then some rest
    else tryWsTag s p minLen m

/-- `[^A-Z]*?\s+([A-Z_]{2,})$` from offset `q`: the lazy run grows one
non-letter character at a time, attempting the whitespace-plus-token tail at
each stop. -/
def tryLazyMid (s : List Char) : Nat → Nat → Option (List Char)
  | 0, _ => none
  | fuel + 1, q =>
    match tryWsTag s q 2 (leadingWs (s.drop q)) with
    | some g => some g
    | none =>
      match charAt s q with
      | some c => if isAsciiLetter c then none else tryLazyMid s fuel (q + 1)
      | none => none

/-- First greedy `\s+` of the within-comment pattern, backtracking from the
whitespace-run length down to `1`, each stop continuing with the lazy
middle. -/
def tryWsThenLazy (s : List Char) (a : Nat) : Nat → Option (List Char)
  | 0 => none
  | m + 1 =>
    match tryLazyMid s (s.length + 1) (a + m + 1) with
    | some g => some g
    | none => tryWsThenLazy s a m

/-- Continuation `\s+[^A-Z]*?\s+([A-Z_]{2,})$` from offset `a`. -/
def contWithin (s : List Char) (a : Nat) : Option (List Char) :=
  tryWsThenLazy s a (leadingWs (s.drop a))

/-- Match attempt of `(pref|/\*|<!--)\s+[^A-Z]*?\s+([A-Z_]{2,})$` at start
offset `j`, trying the alternatives in source order and falling through to
the next alternative when the continuation fails. Returns (matched
alternative text, partial tag). -/
def withinCommentMatchAt (pref s : List Char) (j : Nat) :
    Option (List Char × List Char) :=
  match (if isPrefixAtCI pref s j then contWithin s (j + pref.length) else none) with
  | some g => some ((s.drop j).take pref.length, g)
  | none =>
  match (if isPrefixAtCI "/*".toList s j then contWithin s (j + 2) else none) with
  | some g => some ((s.drop j).take 2, g)
  | none =>
  match (if isPrefixAtCI "<!--".toList s j then contWithin s (j + 4) else none) with
  | some g => some ((s.drop j).take 4, g)
  | none => none

/-- `patterns.withinComment` of `analyzeCommentContext`. -/
def matchWithinComment (pref s : List Char) : Option (List Char × List Char) :=
  scanLeftmost (withinCommentMatchAt pref s) (s.length + 1) 0

/-- Match attempt of `[;})]\s+([A-Z_]{2,})$` at start offset `j`. -/
def afterCodeMatchAt (s : List Char) (j : Nat) : Option (List Char) :=
  match charAt s j with
  | some c =>
    if c == ';' || c == Char.ofNat 125 || c == ')' then
      tryWsTag s (j + 1) 2 (leadingWs (s.drop (j + 1)))
    else none
  | none => none

/-- `patterns.afterCode` of `analyzeCommentContext`. -/
def matchAfterCode (s : List Char) : Option (List Char) :=
  scanLeftmost (afterCodeMatchAt s) (s.length + 1) 0

/-- Match attempt of `\s+([A-Z_]+)$` at start offset `j`. -/
def endOfLineMatchAt (s : List Char) (j : Nat) : Option (List Char) :=
  tryWsTag s j 1 (leadingWs (s.drop j))

/-- The `endOfLinePattern` of `analyzeCommentContext`. -/
def matchEndOfLine (s : List Char) : Option (List Char) :=
  scanLeftmost (endOfLineMatchAt s) (s.length + 1) 0

/-- `analyzeCommentContext` from `src/completion/context.ts`: the five
pattern checks evaluated in source order, the two guarded paths falling
through to the next check when their guard fails, and the final
no-suggestion default. -/
def analyzeCommentContext (userLanguages : List UserDefinedLanguage)
    (textBeforeCursor : List Char) (languageId : String) : CommentContext :=
  let commentMarker := (getCommentPrefix userLanguages languageId).data
  let r1 := (matchSingleLine commentMarker textBeforeCursor).map
    (fun g => CommentContext.mk true false g (some commentMarker))
  let r2 := (matchMultiLineStart textBeforeCursor).map
    (fun og => CommentContext.mk true false og.2 (some og.1))
  let r3 := match matchWithinComment commentMarker textBeforeCursor with
    | some (o, g) =>
      if 2 ≤ g.length ∧ g ≠ [] ∧ g.all isTagChar = true then
        some (CommentContext.mk true false g (some o))
      else none
    | none => none
  let r4 := match matchAfterCode textBeforeCursor with
    | some g =>
      if 2 ≤ g.length ∧ g ≠ [] ∧ g.all isTagChar = true then
        some (CommentContext.mk true true g (some commentMarker))
      else none
    | none => none
  let r5 := match matchEndOfLine textBeforeCursor with
    | some g =>
      if 3 ≤ g.length then
        some (CommentContext.mk true true g (some commentMarker))
      else none
    | none => none
  ((((r1.orElse (fun _ => r2)).orElse (fun _ => r3)).orElse
      (fun _ => r4)).orElse (fun _ => r5)).getD
    (CommentContext.mk false false [] none)

/-! ## Completion provider (src/completion/provider.ts) -/

/-- The fields of a produced `vscode.CompletionItem` that the source sets. -/
structure CompletionItem where
  label : String
  insertText : String
  detail : String
  documentation : String
  sortText : String
  deriving DecidableEq, Repr

/-- The body of `provideCompletionItems` after the context analysis: the
early returns, the `PREDEFINED_COMMENT_TAGS ++ customTags` candidate pool,
the case-insensitive containment filter, and the item construction with
prefix-priority `sortText`. -/
def completionItemsForContext (commentContext : CommentContext)
    (customTags : List CustomTag) (userLanguages : List UserDefinedLanguage)
    (useEmojisGlobal : Bool) (languageId : String) : List CompletionItem :=
  if !commentContext.shouldSuggest then []
  else
    let allTags := PREDEFINED_COMMENT_TAGS ++ customTags
    let partialTag := listToLower commentContext.partialTag
    if 0 < partialTag.length ∧ partialTag.length < 2 then []
    else
      let filteredTags := allTags.filter (fun tagObj =>
        containsSub (listToLower tagObj.tag.toList) partialTag || partialTag == [])
      filteredTags.map (fun tagObj =>
        let emojiPart :=
          if shouldUseEmoji useEmojisGlobal tagObj then " " ++ tagObj.emoji.getD ""
          else ""
        let snippetBody :=
          if commentContext.isNewComment then
            getCommentPrefix userLanguages languageId ++ " " ++ tagObj.tag ++
              emojiPart ++ " $1" ++ getCommentSuffix userLanguages languageId
          else tagObj.tag ++ emojiPart ++ " $1"
        { label := tagObj.tag
          insertText := snippetBody
          detail := "Comment Chameleon Tag"
          documentation := "Insert the " ++ tagObj.tag ++ " tag" ++
            (match tagObj.emoji with
             | some e => if e == "" then "" else " " ++ e
             | none => "")
          sortText :=
            if partialTag.isPrefixOf (listToLower tagObj.tag.toList) then
              "0_" ++ tagObj.tag
            else "1_" ++ tagObj.tag })

/-- `provideCompletionItems` composed with the context analysis, as in the
source provider. -/
def provideCompletionItems (textBeforeCursor : List Char)
    (customTags : List CustomTag) (userLanguages : List UserDefinedLanguage)
    (useEmojisGlobal : Bool) (languageId : String) : List CompletionItem :=
  completionItemsForContext (analyzeCommentContext userLanguages textBeforeCursor languageId)
    customTags userLanguages useEmojisGlobal languageId

/-! ## Shared lemmas -/

theorem leadingCount_le_length (p : Char → Bool) (l : List Char) :
    leadingCount p l ≤ l.length := by
  induction l with
  | nil => simp [leadingCount]
  | cons c t ih =>
    simp only [leadingCount, List.length_cons]
    split <;> omega

theorem take_leadingCount_all (p : Char → Bool) :
    ∀ (l : List Char) (m : Nat), m ≤ leadingCount p l →
      ∀ c ∈ l.take m, p c = true := by
  intro l
  induction l with
  | nil => intro m _ c hc; simp at hc
  | cons a t ih =>
    intro m hm c hc
    by_cases hpa : p a = true
    · simp only [leadingCount, hpa, if_true] at hm
      cases m with
      | zero => simp at hc
      | succ m' =>
        simp only [List.take_succ_cons, List.mem_cons] at hc
        rcases hc with h | h
        · rw [h]; exact hpa
        · exact ih m' (by omega) c h
    · simp only [leadingCount, hpa] at hm
      simp only [Bool.false_eq_true, if_false] at hm
      have : m = 0 := by omega
      subst this
      simp at hc

theorem all_append_le_leadingCount (p : Char → Bool) :
    ∀ (u v : List Char), u.all p = true → u.length ≤ leadingCount p (u ++ v) := by
  intro u
  induction u with
  | nil => intro v _; simp
  | cons c t ih =>
    intro v hall
    simp only [List.all_cons, Bool.and_eq_true] at hall
    simp only [List.cons_append, leadingCount, hall.1, if_true, List.length_cons]
    have := ih v hall.2
    simp only [List.append_eq] at this ⊢
    omega

theorem isPrefixOf_take (pat : List Char) :
    ∀ (l : List Char) (n : Nat), pat.isPrefixOf l = true → pat.length ≤ n →
      pat.isPrefixOf (l.take n) = true := by
  induction pat with
  | nil => intro l n _ _; simp [List.isPrefixOf]
  | cons a pt ih =>
    intro l n hp hn
    cases l with
    | nil => simp [List.isPrefixOf] at hp
    | cons b t =>
      cases n with
      | zero => simp at hn
      | succ n' =>
        simp only [List.isPrefixOf, Bool.and_eq_true] at hp
        simp only [List.take_succ_cons, List.isPrefixOf, Bool.and_eq_true]
        refine ⟨hp.1, ih t n' hp.2 ?_⟩
        simp only [List.length_cons] at hn
        omega

/-! ## C1: tag merge -/

/-- C1: for every persisted custom-tag list, `getMergedTags` returns the
built-in catalog entries whose tag text does not exactly (case-sensitively)
match any custom entry's tag text, in catalog order, followed by all custom
entries in their persisted order; and when the custom list has exactly one
entry with a given tag text, the effective set has exactly one entry with
that text, namely the custom entry (with its attributes, not a built-in's). -/
theorem getMergedTags_custom_override (customTags : List CustomTag) :
    getMergedTags customTags =
      PREDEFINED_COMMENT_TAGS.filter
        (fun p => decide (∀ c ∈ customTags, c.tag ≠ p.tag)) ++ customTags
    ∧ ∀ (t : String) (c : CustomTag),
        customTags.filter (fun x => x.tag == t) = [c] →
        (getMergedTags customTags).filter (fun x => x.tag == t) = [c] := by
  constructor
  · unfold getMergedTags
    refine congrArg (· ++ customTags) ?_
    apply List.filter_congr
    intro p _
    by_cases h : ∀ c ∈ customTags, c.tag ≠ p.tag
    · simp only [decide_eq_true h, Bool.not_eq_true']
      rw [List.any_eq_false]
      intro c hc
      simp only [beq_iff_eq]
      exact h c hc
    · have hd : decide (∀ c ∈ customTags, c.tag ≠ p.tag) = false := by
        simpa using h
      rw [hd]
      push_neg at h
      obtain ⟨c, hc, he⟩ := h
      have : customTags.any (fun custom => custom.tag == p.tag) = true :=
        List.any_eq_true.mpr ⟨c, hc, by simp [he]⟩
      simp [this]
  · intro t c hfc
    have hcmem : c ∈ customTags.filter (fun x => x.tag == t) := by
      rw [hfc]; exact List.mem_singleton.mpr rfl
    have hcmem' := List.mem_filter.mp hcmem
    unfold getMergedTags
    rw [List.filter_append]
    have hnil : (PREDEFINED_COMMENT_TAGS.filter
        (fun predefined => !(customTags.any (fun custom => custom.tag == predefined.tag)))).filter
          (fun x => x.tag == t) = [] := by
      rw [List.filter_eq_nil_iff]
      intro x hx hxt
      have hsurv := (List.mem_filter.mp hx).2
      have hany : customTags.any (fun custom => custom.tag == x.tag) = true := by
        apply List.any_eq_true.mpr
        refine ⟨c, hcmem'.1, ?_⟩
        have h1 : c.tag = t := by simpa using hcmem'.2
        have h2 : x.tag = t := by simpa using hxt
        simp [h1, h2]
      rw [hany] at hsurv
      simp at hsurv
    rw [hnil, List.nil_append, hfc]

/-- Concrete scenario C for C1: a custom `TODO:` with color `#000000`
overrides the built-in `TODO:`; the effective set has exactly one `TODO:`
entry, the custom one. -/
theorem getMergedTags_custom_override_witness :
    ([({ tag := "TODO:", color := some "#000000" } : CustomTag)].filter
        (fun x => x.tag == "TODO:") =
      [({ tag := "TODO:", color := some "#000000" } : CustomTag)])
    ∧ (getMergedTags [({ tag := "TODO:", color := some "#000000" } : CustomTag)]).filter
        (fun x => x.tag == "TODO:") =
      [({ tag := "TODO:", color := some "#000000" } : CustomTag)] :=
  ⟨by decide,
   (getMergedTags_custom_override _).2 "TODO:" _ (by decide)⟩

/-! ## C7: decoration-type cache -/

theorem decorationKey_congr (t1 t2 : CustomTag)
    (hc : t1.color = t2.color) (hb : t1.backgroundColor = t2.backgroundColor)
    (hs : t1.strikethrough = t2.strikethrough) (hu : t1.underline = t2.underline)
    (hbo : t1.bold = t2.bold) (hi : t1.italic = t2.italic) :
    decorationKey t1 = decorationKey t2 := by
  unfold decorationKey decorationKeyFields
  rw [hc, hb, hs, hu, hbo, hi]

/-- After a call of `getDecorationTypeForTag`, the cache maps the tag's key
to the handle the call returned. -/
theorem getDecorationTypeForTag_cached (t : CustomTag) (s : ExtensionState) :
    ((getDecorationTypeForTag t s).2).activeDecorationTypes.find?
        (fun e => e.1 == decorationKey t) =
      some (decorationKey t, (getDecorationTypeForTag t s).1)
    ∨ (∃ e, ((getDecorationTypeForTag t s).2).activeDecorationTypes.find?
        (fun e => e.1 == decorationKey t) = some e ∧
        e.2 = (getDecorationTypeForTag t s).1) := by
  unfold getDecorationTypeForTag
  cases h : s.activeDecorationTypes.find? (fun e => e.1 == decorationKey t) with
  | some e =>
    right
    refine ⟨e, ?_, ?_⟩ <;> simp [h]
  | none =>
    left
    simp [h]

/-- A cache hit returns the cached handle and leaves the state unchanged. -/
theorem getDecorationTypeForTag_hit (t : CustomTag) (st : ExtensionState)
    (e : String × TextEditorDecorationType)
    (h : st.activeDecorationTypes.find? (fun x => x.1 == decorationKey t) = some e) :
    getDecorationTypeForTag t st = (e.2, st) := by
  unfold getDecorationTypeForTag
  simp only [h]

/-- C7: two tags with identical `color`, `backgroundColor`, `bold`,
`italic`, `underline` and `strikethrough` attributes receive the same
cached style handle, regardless of their `tag` text, `emoji` or `useEmoji`
values: requesting the second tag's handle right after the first returns
the very same handle and leaves the cache unchanged (one handle per
distinct attribute combination). -/
theorem getDecorationTypeForTag_one_handle_per_attrs (t1 t2 : CustomTag)
    (s : ExtensionState)
    (hc : t1.color = t2.color) (hb : t1.backgroundColor = t2.backgroundColor)
    (hs : t1.strikethrough = t2.strikethrough) (hu : t1.underline = t2.underline)
    (hbo : t1.bold = t2.bold) (hi : t1.italic = t2.italic) :
    (getDecorationTypeForTag t2 (getDecorationTypeForTag t1 s).2).1 =
      (getDecorationTypeForTag t1 s).1
    ∧ (getDecorationTypeForTag t2 (getDecorationTypeForTag t1 s).2).2 =
      (getDecorationTypeForTag t1 s).2 := by
  have hkey : decorationKey t2 = decorationKey t1 :=
    decorationKey_congr t2 t1 hc.symm hb.symm hs.symm hu.symm hbo.symm hi.symm
  have hcache := getDecorationTypeForTag_cached t1 s
  have hfind : ∃ e, ((getDecorationTypeForTag t1 s).2).activeDecorationTypes.find?
      (fun e => e.1 == decorationKey t1) = some e ∧
      e.2 = (getDecorationTypeForTag t1 s).1 := by
    rcases hcache with h | h
    · exact ⟨_, h, rfl⟩
    · exact h
  obtain ⟨e, he, hev⟩ := hfind
  have he' : ((getDecorationTypeForTag t1 s).2).activeDecorationTypes.find?
      (fun x => x.1 == decorationKey t2) = some e := by
    rw [hkey]; exact he
  have hhit := getDecorationTypeForTag_hit t2 _ e he'
  rw [hhit, hev]
  exact ⟨rfl, rfl⟩

/-- Concrete scenario F for C7: two tags sharing identical visual attributes
but different text and emoji produce one shared style handle, and the second
request does not change the cache. -/
theorem getDecorationTypeForTag_one_handle_witness :
    (({ tag := "AAA:", color := some "#fff", emoji := some "X" } : CustomTag).color =
      ({ tag := "BBB:", color := some "#fff" } : CustomTag).color)
    ∧ ((getDecorationTypeForTag { tag := "BBB:", color := some "#fff" }
          (getDecorationTypeForTag { tag := "AAA:", color := some "#fff", emoji := some "X" }
            ⟨[], none, 0⟩).2).1 =
        (getDecorationTypeForTag { tag := "AAA:", color := some "#fff", emoji := some "X" }
          ⟨[], none, 0⟩).1) :=
  ⟨rfl,
   (getDecorationTypeForTag_one_handle_per_attrs
      { tag := "AAA:", color := some "#fff", emoji := some "X" }
      { tag := "BBB:", color := some "#fff" }
      ⟨[], none, 0⟩ rfl rfl rfl rfl rfl rfl).1⟩

/-! ## C9: debounce -/

/-- C9: every call to `triggerUpdateDecorations` first cancels any pending
debounce timer (the outcome is independent of the previously pending
timer); with `immediate = true` it runs the scan synchronously and leaves
no timer pending; otherwise it runs nothing now and schedules exactly one
scan for 500ms later; hence a burst of non-immediate triggers leaves
exactly one scan pending, scheduled 500ms after the last trigger. -/
theorem triggerUpdateDecorations_debounce (now : Nat) (s : ExtensionState) :
    ((triggerUpdateDecorations now true s).1.decorationTimeout = none
      ∧ (triggerUpdateDecorations now true s).2 = true)
    ∧ ((triggerUpdateDecorations now false s).1.decorationTimeout = some (now + 500)
      ∧ (triggerUpdateDecorations now false s).2 = false)
    ∧ (∀ immediate, triggerUpdateDecorations now immediate s =
        triggerUpdateDecorations now immediate { s with decorationTimeout := none })
    ∧ (∀ (ts : List Nat) (tLast : Nat),
        ((ts ++ [tLast]).foldl
            (fun st n => (triggerUpdateDecorations n false st).1) s).decorationTimeout =
          some (tLast + 500)) := by
  refine ⟨⟨rfl, rfl⟩, ⟨rfl, rfl⟩, ?_, ?_⟩
  · intro immediate
    simp [triggerUpdateDecorations]
  · intro ts tLast
    rw [List.foldl_append]
    simp [triggerUpdateDecorations]

/-! ## C10: single-character partial suppression -/

/-- C10: with `shouldSuggest = true` and a `partialTag` of exactly one
character, `provideCompletionItems` returns the empty candidate list. -/
theorem completionItems_single_char_empty (ctx : CommentContext)
    (customTags : List CustomTag) (userLanguages : List UserDefinedLanguage)
    (useEmojisGlobal : Bool) (languageId : String)
    (h1 : ctx.shouldSuggest = true) (h2 : ctx.partialTag.length = 1) :
    completionItemsForContext ctx customTags userLanguages useEmojisGlobal languageId = [] := by
  unfold completionItemsForContext
  rw [h1]
  have hlen : (listToLower ctx.partialTag).length = 1 := by
    simp [listToLower, h2]
  simp only [Bool.not_true, Bool.false_eq_true, if_false]
  rw [if_pos]
  omega

/-- Witness for C10: suggestion context with partial `"T"` yields no
candidates although several tag texts contain `t`. -/
theorem completionItems_single_char_empty_witness :
    ((CommentContext.mk true false ['T'] none).shouldSuggest = true)
    ∧ ((CommentContext.mk true false ['T'] none).partialTag.length = 1)
    ∧ completionItemsForContext (CommentContext.mk true false ['T'] none)
        [] [] true "javascript" = [] :=
  ⟨rfl, rfl,
   completionItems_single_char_empty (CommentContext.mk true false ['T'] none)
     [] [] true "javascript" rfl rfl⟩

/-! ## C6: completion candidates and ranking -/

theorem sortTextZero_lt_sortTextOne (x y : String) : ("0_" ++ x) < ("1_" ++ y) := by
  rw [String.lt_iff_toList_lt]
  have hx : ("0_" ++ x).toList = '0' :: '_' :: x.toList := by
    simp [String.toList]
  have hy : ("1_" ++ y).toList = '1' :: '_' :: y.toList := by
    simp [String.toList]
  rw [hx, hy]
  exact List.Lex.rel (by decide)

/-- C6 counterexample: the candidate list is not "exactly the effective
(merged) tags matching the partial". First input: a suggestion context with
empty partial and a custom `TODO:` override — the candidate labels are the
concatenation of all 22 built-ins and the custom tag (23 entries, `TODO:`
twice), not the 22 labels of the merged set. Second input: a suggestion
context with the one-character partial `O` — the provider returns no
candidates although tags whose text contains `o` exist. -/
theorem completionItems_not_exactly_merged :
    ¬ ((completionItemsForContext (CommentContext.mk true false [] (some "//".toList))
          [{ tag := "TODO:", color := some "#000000" }] [] true "javascript").map
            (fun i => i.label) =
        ((getMergedTags [{ tag := "TODO:", color := some "#000000" }]).filter
            (fun tagObj => containsSub (listToLower tagObj.tag.toList) [] ||
              ([] : List Char) == [])).map (fun t => t.tag))
    ∧ completionItemsForContext (CommentContext.mk true false ['O'] none)
        [] [] true "javascript" = []
    ∧ (PREDEFINED_COMMENT_TAGS.filter
        (fun tagObj => containsSub (listToLower tagObj.tag.toList) ['o'])).length ≠ 0 := by
  refine ⟨by decide, by decide, by decide⟩

/-- C6 (amended): for every completion context with `shouldSuggest = true`
whose partial is not exactly one character long, the candidate labels are
exactly the tags of the concatenation `PREDEFINED_COMMENT_TAGS ++ custom`
(shadowed built-ins included, not the merged set) whose text contains the
partial case-insensitively (empty partial matches all), in pool order; and
every candidate whose text starts with the partial sorts strictly before
every candidate that merely contains it. -/
theorem completionItems_pool_filter_ranking (ctx : CommentContext)
    (customTags : List CustomTag) (userLanguages : List UserDefinedLanguage)
    (useEmojisGlobal : Bool) (languageId : String)
    (h1 : ctx.shouldSuggest = true) (h2 : ctx.partialTag.length ≠ 1) :
    ((completionItemsForContext ctx customTags userLanguages useEmojisGlobal languageId).map
        (fun i => i.label) =
      ((PREDEFINED_COMMENT_TAGS ++ customTags).filter (fun tagObj =>
        containsSub (listToLower tagObj.tag.toList) (listToLower ctx.partialTag) ||
          listToLower ctx.partialTag == ([] : List Char))).map (fun t => t.tag))
    ∧ (∀ a ∈ completionItemsForContext ctx customTags userLanguages useEmojisGlobal languageId,
       ∀ b ∈ completionItemsForContext ctx customTags userLanguages useEmojisGlobal languageId,
        (listToLower ctx.partialTag).isPrefixOf (listToLower a.label.toList) = true →
        (listToLower ctx.partialTag).isPrefixOf (listToLower b.label.toList) = false →
        a.sortText < b.sortText) := by
  have hlen : (listToLower ctx.partialTag).length = ctx.partialTag.length := by
    simp [listToLower]
  have hcond : ¬(0 < (listToLower ctx.partialTag).length ∧
      (listToLower ctx.partialTag).length < 2) := by
    rw [hlen]; omega
  unfold completionItemsForContext
  rw [h1]
  simp only [Bool.not_true, Bool.false_eq_true, if_false]
  rw [if_neg hcond]
  constructor
  · rw [List.map_map]
    rfl
  · intro a ha b hb hpa hpb
    obtain ⟨ta, hta, hmka⟩ := List.mem_map.mp ha
    obtain ⟨tb, htb, hmkb⟩ := List.mem_map.mp hb
    have hal : a.label = ta.tag := by rw [← hmka]
    have hbl : b.label = tb.tag := by rw [← hmkb]
    have has : a.sortText =
        if (listToLower ctx.partialTag).isPrefixOf (listToLower ta.tag.toList) then
          "0_" ++ ta.tag
        else "1_" ++ ta.tag := by
      rw [← hmka]
    have hbs : b.sortText =
        if (listToLower ctx.partialTag).isPrefixOf (listToLower tb.tag.toList) then
          "0_" ++ tb.tag
        else "1_" ++ tb.tag := by
      rw [← hmkb]
    rw [hal] at hpa
    rw [hbl] at hpb
    rw [has, if_pos hpa, hbs, if_neg (by rw [hpb]; exact Bool.false_ne_true)]
    exact sortTextZero_lt_sortTextOne ta.tag tb.tag

/-- Witness for the amended C6: with partial `todo`, the lone candidate is
`TODO:` and the filter equation holds. -/
theorem completionItems_pool_filter_ranking_witness :
    ((CommentContext.mk true false "todo".toList none).shouldSuggest = true)
    ∧ ((CommentContext.mk true false "todo".toList none).partialTag.length ≠ 1)
    ∧ ((completionItemsForContext (CommentContext.mk true false "todo".toList none)
          [] [] true "javascript").map (fun i => i.label) =
        ((PREDEFINED_COMMENT_TAGS ++ ([] : List CustomTag)).filter (fun tagObj =>
          containsSub (listToLower tagObj.tag.toList)
              (listToLower "todo".toList) ||
            listToLower "todo".toList == ([] : List Char))).map (fun t => t.tag)) :=
  ⟨rfl, by decide,
   (completionItems_pool_filter_ranking (CommentContext.mk true false "todo".toList none)
      [] [] true "javascript" rfl (by decide)).1⟩

/-! ## C8: language lookup order and fallbacks -/

theorem find?_append_first {α : Type} (p : α → Bool) (pre : List α) (x : α)
    (post : List α) (hpre : ∀ y ∈ pre, p y = false) (hx : p x = true) :
    (pre ++ x :: post).find? p = some x := by
  induction pre with
  | nil => simpa using List.find?_cons_of_pos post hx
  | cons a t ih =>
    rw [List.cons_append, List.find?_cons_of_neg]
    · exact ih (fun y hy => hpre y (List.mem_cons_of_mem a hy))
    · rw [hpre a (List.mem_cons_self a t)]
      exact Bool.false_ne_true

theorem lookupStr_some_mem (table : List (String × String)) (key v : String)
    (h : lookupStr table key = some v) : (key, v) ∈ table := by
  unfold lookupStr at h
  cases hf : table.find? (fun e => e.1 == key) with
  | none => rw [hf] at h; cases h
  | some e =>
    rw [hf] at h
    have hv : e.2 = v := Option.some.inj h
    have hmem := List.mem_of_find?_eq_some hf
    have hkey' : e.1 = key := by
      simpa using List.find?_some (p := fun x : String × String => x.1 == key) hf
    have he : e = (key, v) := by
      cases e
      simp only [Prod.mk.injEq]
      exact ⟨hkey', hv⟩
    rw [← he]
    exact hmem

/-- C8: `getCommentPrefix` and `getCommentSuffix` are total functions (the
embedding is a plain `def`, so no call can raise) with the lookup order:
first user-defined language whose name matches the language id
case-insensitively; otherwise the built-in table entry; otherwise the
fallback `"//"` for the single-line marker and `""` for the multi-line
suffix. -/
theorem getCommentPrefixSuffix_lookup (userLanguages : List UserDefinedLanguage)
    (languageId : String) :
    (∀ pre ul post, userLanguages = pre ++ ul :: post →
      (∀ l ∈ pre, (strToLower l.languageName == strToLower languageId) = false) →
      (strToLower ul.languageName == strToLower languageId) = true →
      getCommentPrefix userLanguages languageId = ul.singleLinePrefix ∧
      getCommentSuffix userLanguages languageId = ul.multiLineSuffix)
    ∧ ((∀ l ∈ userLanguages, (strToLower l.languageName == strToLower languageId) = false) →
      (∀ p, (languageId, p) ∈ commentPrefixTable →
        getCommentPrefix userLanguages languageId = p)
      ∧ ((∀ p, (languageId, p) ∉ commentPrefixTable) →
        getCommentPrefix userLanguages languageId = "//")
      ∧ (∀ p, (languageId, p) ∈ commentSuffixTable →
        getCommentSuffix userLanguages languageId = p)
      ∧ ((∀ p, (languageId, p) ∉ commentSuffixTable) →
        getCommentSuffix userLanguages languageId = "")) := by
  constructor
  · intro pre ul post heq hpre hul
    have hfind : userLanguages.find?
        (fun lang => strToLower lang.languageName == strToLower languageId) = some ul := by
      rw [heq]
      exact find?_append_first _ pre ul post hpre hul
    constructor
    · unfold getCommentPrefix
      rw [hfind]
    · unfold getCommentSuffix
      rw [hfind]
  · intro hnone
    have hfind : userLanguages.find?
        (fun lang => strToLower lang.languageName == strToLower languageId) = none := by
      apply List.find?_eq_none.mpr
      intro x hx
      rw [hnone x hx]
      exact Bool.false_ne_true
    refine ⟨?_, ?_, ?_, ?_⟩
    · intro p hp
      unfold getCommentPrefix
      rw [hfind]
      simp only [commentPrefixTable, List.mem_cons, List.not_mem_nil, or_false,
        Prod.mk.injEq] at hp
      rcases hp with h | h | h | h | h | h | h | h | h | h <;>
        · obtain ⟨rfl, rfl⟩ := h
          decide
    · intro hnotin
      unfold getCommentPrefix
      rw [hfind]
      cases hl : lookupStr commentPrefixTable languageId with
      | none => rfl
      | some v => exact absurd (lookupStr_some_mem _ _ _ hl) (hnotin v)
    · intro p hp
      unfold getCommentSuffix
      rw [hfind]
      simp only [commentSuffixTable, List.mem_cons, List.not_mem_nil, or_false,
        Prod.mk.injEq] at hp
      rcases hp with h | h | h <;>
        · obtain ⟨rfl, rfl⟩ := h
          decide
    · intro hnotin
      unfold getCommentSuffix
      rw [hfind]
      cases hl : lookupStr commentSuffixTable languageId with
      | none => rfl
      | some v => exact absurd (lookupStr_some_mem _ _ _ hl) (hnotin v)

/-- Witness for C8: a user-defined language `Rust` is found first by its
case-insensitive name for language id `RUST`, yielding its own marker and
suffix; with no user languages, `python` resolves through the built-in
table; an unknown id falls back to `//` and the empty suffix. -/
theorem getCommentPrefixSuffix_lookup_witness :
    (∀ l ∈ ([] : List UserDefinedLanguage),
      (strToLower l.languageName == strToLower "RUST") = false)
    ∧ (strToLower (UserDefinedLanguage.mk "Rust" "///" "/*" "*/").languageName ==
        strToLower "RUST") = true
    ∧ getCommentPrefix [UserDefinedLanguage.mk "Rust" "///" "/*" "*/"] "RUST" = "///"
    ∧ getCommentSuffix [UserDefinedLanguage.mk "Rust" "///" "/*" "*/"] "RUST" = "*/"
    ∧ ("python", "#") ∈ commentPrefixTable
    ∧ getCommentPrefix [] "python" = "#"
    ∧ (∀ p, ("lean4", p) ∉ commentPrefixTable)
    ∧ getCommentPrefix [] "lean4" = "//"
    ∧ getCommentSuffix [] "lean4" = "" := by
  have hrust := (getCommentPrefixSuffix_lookup
      [UserDefinedLanguage.mk "Rust" "///" "/*" "*/"] "RUST").1
      [] (UserDefinedLanguage.mk "Rust" "///" "/*" "*/") [] rfl
      (by intro l hl; cases hl) (by decide)
  have hpy := (getCommentPrefixSuffix_lookup [] "python").2
      (by intro l hl; cases hl)
  have hlean := (getCommentPrefixSuffix_lookup [] "lean4").2
      (by intro l hl; cases hl)
  have hnotp : ∀ p, ("lean4", p) ∉ commentPrefixTable := by
    intro p hp
    simp only [commentPrefixTable, List.mem_cons, List.not_mem_nil, or_false,
      Prod.mk.injEq] at hp
    rcases hp with ⟨h1, _⟩ | ⟨h1, _⟩ | ⟨h1, _⟩ | ⟨h1, _⟩ | ⟨h1, _⟩ |
      ⟨h1, _⟩ | ⟨h1, _⟩ | ⟨h1, _⟩ | ⟨h1, _⟩ | ⟨h1, _⟩ <;> exact absurd h1 (by decide)
  have hnots : ∀ p, ("lean4", p) ∉ commentSuffixTable := by
    intro p hp
    simp only [commentSuffixTable, List.mem_cons, List.not_mem_nil, or_false,
      Prod.mk.injEq] at hp
    rcases hp with ⟨h1, _⟩ | ⟨h1, _⟩ | ⟨h1, _⟩ <;> exact absurd h1 (by decide)
  exact ⟨(by intro l hl; cases hl), (by decide), hrust.1, hrust.2, (by decide),
    hpy.1 "#" (by decide), hnotp, hlean.2.1 hnotp, hlean.2.2.2 hnots⟩

/-! ## C4: analyzer pattern order, flags, thresholds -/

theorem tryWsTag_spec (s : List Char) (p minLen : Nat) :
    ∀ (m : Nat) (g : List Char), tryWsTag s p minLen m = some g →
      g.all isTagChar = true ∧ minLen ≤ g.length ∧ ∃ j, g = s.drop j := by
  intro m
  induction m with
  | zero => intro g h; simp [tryWsTag] at h
  | succ m ih =>
    intro g h
    simp only [tryWsTag] at h
    split at h
    · rename_i hcond
      obtain rfl := Option.some.inj h
      simp only [Bool.and_eq_true, decide_eq_true_eq] at hcond
      exact ⟨hcond.1, hcond.2, p + m + 1, rfl⟩
    · exact ih g h

theorem tryLazyMid_spec (s : List Char) :
    ∀ (fuel q : Nat) (g : List Char), tryLazyMid s fuel q = some g →
      g.all isTagChar = true ∧ 2 ≤ g.length ∧ ∃ j, g = s.drop j := by
  intro fuel
  induction fuel with
  | zero => intro q g h; simp [tryLazyMid] at h
  | succ fuel ih =>
    intro q g h
    simp only [tryLazyMid] at h
    cases hws : tryWsTag s q 2 (leadingWs (s.drop q)) with
    | some g' =>
      rw [hws] at h
      obtain rfl := Option.some.inj h
      exact tryWsTag_spec s q 2 _ g' hws
    | none =>
      rw [hws] at h
      cases hch : charAt s q with
      | some c =>
        simp only [hch] at h
        split at h
        · cases h
        · exact ih (q + 1) g h
      | none => simp [hch] at h

theorem tryWsThenLazy_spec (s : List Char) (a : Nat) :
    ∀ (m : Nat) (g : List Char), tryWsThenLazy s a m = some g →
      g.all isTagChar = true ∧ 2 ≤ g.length ∧ ∃ j, g = s.drop j := by
  intro m
  induction m with
  | zero => intro g h; simp [tryWsThenLazy] at h
  | succ m ih =>
    intro g h
    simp only [tryWsThenLazy] at h
    cases hl : tryLazyMid s (s.length + 1) (a + m + 1) with
    | some g' =>
      rw [hl] at h
      obtain rfl := Option.some.inj h
      exact tryLazyMid_spec s _ _ g' hl
    | none => rw [hl] at h; exact ih g h

theorem contWithin_spec (s : List Char) (a : Nat) (g : List Char)
    (h : contWithin s a = some g) :
    g.all isTagChar = true ∧ 2 ≤ g.length ∧ ∃ j, g = s.drop j :=
  tryWsThenLazy_spec s a _ g h

theorem withinCommentMatchAt_spec (pref s : List Char) (j : Nat)
    (o g : List Char) (h : withinCommentMatchAt pref s j = some (o, g)) :
    g.all isTagChar = true ∧ 2 ≤ g.length := by
  unfold withinCommentMatchAt at h
  cases h1 : (if isPrefixAtCI pref s j then contWithin s (j + pref.length) else none) with
  | some g' =>
    rw [h1] at h
    obtain ⟨rfl, rfl⟩ := Prod.mk.injEq .. |>.mp (Option.some.inj h)
    split at h1
    · exact ⟨(contWithin_spec _ _ _ h1).1, (contWithin_spec _ _ _ h1).2.1⟩
    · cases h1
  | none =>
    rw [h1] at h
    cases h2 : (if isPrefixAtCI "/*".toList s j then contWithin s (j + 2) else none) with
    | some g' =>
      rw [h2] at h
      obtain ⟨rfl, rfl⟩ := Prod.mk.injEq .. |>.mp (Option.some.inj h)
      split at h2
      · exact ⟨(contWithin_spec _ _ _ h2).1, (contWithin_spec _ _ _ h2).2.1⟩
      · cases h2
    | none =>
      rw [h2] at h
      cases h3 : (if isPrefixAtCI "<!--".toList s j then contWithin s (j + 4) else none) with
      | some g' =>
        rw [h3] at h
        obtain ⟨rfl, rfl⟩ := Prod.mk.injEq .. |>.mp (Option.some.inj h)
        split at h3
        · exact ⟨(contWithin_spec _ _ _ h3).1, (contWithin_spec _ _ _ h3).2.1⟩
        · cases h3
      | none => rw [h3] at h; cases h

theorem scanLeftmost_some {α : Type} (f : Nat → Option α) :
    ∀ (fuel j : Nat) (r : α), scanLeftmost f fuel j = some r → ∃ i, f i = some r := by
  intro fuel
  induction fuel with
  | zero => intro j r h; simp [scanLeftmost] at h
  | succ fuel ih =>
    intro j r h
    simp only [scanLeftmost] at h
    cases hf : f j with
    | some r' => rw [hf] at h; exact ⟨j, hf.trans h⟩
    | none => rw [hf] at h; exact ih (j + 1) r h

theorem matchWithinComment_spec (pref s o g : List Char)
    (h : matchWithinComment pref s = some (o, g)) :
    g.all isTagChar = true ∧ 2 ≤ g.length := by
  obtain ⟨i, hi⟩ := scanLeftmost_some _ _ _ _ h
  exact withinCommentMatchAt_spec pref s i o g hi

theorem matchAfterCode_spec (s g : List Char) (h : matchAfterCode s = some g) :
    g.all isTagChar = true ∧ 2 ≤ g.length := by
  obtain ⟨i, hi⟩ := scanLeftmost_some _ _ _ _ h
  unfold afterCodeMatchAt at hi
  cases hc : charAt s i with
  | some c =>
    simp only [hc] at hi
    split at hi
    · exact ⟨(tryWsTag_spec s _ 2 _ g hi).1, (tryWsTag_spec s _ 2 _ g hi).2.1⟩
    · cases hi
  | none => simp [hc] at hi

theorem matchEndOfLine_spec (s g : List Char) (h : matchEndOfLine s = some g) :
    g.all isTagChar = true ∧ 1 ≤ g.length ∧ ∃ j, g = s.drop j := by
  obtain ⟨i, hi⟩ := scanLeftmost_some _ _ _ _ h
  exact tryWsTag_spec s i 1 _ g hi

/-- C4: `analyzeCommentContext` evaluates its pattern checks in the fixed
order single-line marker, multi-line opener, within-comment, after-code,
bare end-of-line token; the first matching pattern determines the result;
the first three paths return `isNewComment = false` and the after-code and
end-of-line paths return `isNewComment = true`; the matched partial token
has length at least 2 on the within-comment and after-code paths, and the
end-of-line path applies only with a token of length at least 3 (a shorter
token falls through to the no-suggestion default). -/
theorem analyzeCommentContext_order (userLanguages : List UserDefinedLanguage)
    (text : List Char) (languageId : String) (cp : List Char)
    (hcp : cp = (getCommentPrefix userLanguages languageId).data) :
    (∀ g, matchSingleLine cp text = some g →
      analyzeCommentContext userLanguages text languageId =
        CommentContext.mk true false g (some cp))
    ∧ (matchSingleLine cp text = none →
      ∀ o g, matchMultiLineStart text = some (o, g) →
      analyzeCommentContext userLanguages text languageId =
        CommentContext.mk true false g (some o))
    ∧ (matchSingleLine cp text = none → matchMultiLineStart text = none →
      ∀ o g, matchWithinComment cp text = some (o, g) →
      2 ≤ g.length ∧
        analyzeCommentContext userLanguages text languageId =
          CommentContext.mk true false g (some o))
    ∧ (matchSingleLine cp text = none → matchMultiLineStart text = none →
      matchWithinComment cp text = none → ∀ g, matchAfterCode text = some g →
      2 ≤ g.length ∧
        analyzeCommentContext userLanguages text languageId =
          CommentContext.mk true true g (some cp))
    ∧ (matchSingleLine cp text = none → matchMultiLineStart text = none →
      matchWithinComment cp text = none → matchAfterCode text = none →
      ∀ g, matchEndOfLine text = some g →
      (3 ≤ g.length →
        analyzeCommentContext userLanguages text languageId =
          CommentContext.mk true true g (some cp))
      ∧ (g.length < 3 →
        analyzeCommentContext userLanguages text languageId =
          CommentContext.mk false false [] none))
    ∧ (matchSingleLine cp text = none → matchMultiLineStart text = none →
      matchWithinComment cp text = none → matchAfterCode text = none →
      matchEndOfLine text = none →
      analyzeCommentContext userLanguages text languageId =
        CommentContext.mk false false [] none) := by
  subst hcp
  refine ⟨?_, ?_, ?_, ?_, ?_, ?_⟩
  · intro g h
    simp [analyzeCommentContext, h]
  · intro h1 o g h
    simp [analyzeCommentContext, h1, h]
  · intro h1 h2 o g h
    have hg := matchWithinComment_spec _ text o g h
    refine ⟨hg.2, ?_⟩
    have hne : g ≠ [] := by
      intro he
      rw [he] at hg
      simp at hg
    simp [analyzeCommentContext, h1, h2, h, hg.1, hg.2, hne]
  · intro h1 h2 h3 g h
    have hg := matchAfterCode_spec text g h
    refine ⟨hg.2, ?_⟩
    have hne : g ≠ [] := by
      intro he
      rw [he] at hg
      simp at hg
    simp [analyzeCommentContext, h1, h2, h3, h, hg.1, hg.2, hne]
  · intro h1 h2 h3 h4 g h
    constructor
    · intro hlen
      simp [analyzeCommentContext, h1, h2, h3, h4, h, hlen]
    · intro hlen
      have : ¬ 3 ≤ g.length := by omega
      simp [analyzeCommentContext, h1, h2, h3, h4, h, this]
  · intro h1 h2 h3 h4 h5
    simp [analyzeCommentContext, h1, h2, h3, h4, h5]

/-- Witness for C4: in `// TODO` (javascript) the single-line pattern
matches first and yields the continuing-comment result. -/
theorem analyzeCommentContext_order_witness :
    ("//".toList = (getCommentPrefix [] "javascript").data)
    ∧ matchSingleLine "//".toList "// TODO".toList = some "TODO".toList
    ∧ analyzeCommentContext [] "// TODO".toList "javascript" =
        CommentContext.mk true false "TODO".toList (some "//".toList) :=
  ⟨by decide, by decide,
   (analyzeCommentContext_order [] "// TODO".toList "javascript" "//".toList
      (by decide)).1 "TODO".toList (by decide)⟩

/-! ## C5: suppression on lowercase prose -/

/-- Characters of a line of plain lowercase prose. -/
def lowercaseProseChars : List Char := "abcdefghijklmnopqrstuvwxyz ".toList

theorem isPrefixOfCI_head (p : Char) (ps l : List Char)
    (h : isPrefixOfCI (p :: ps) l = true) :
    ∃ c cs, l = c :: cs ∧ charEqCI p c = true := by
  cases l with
  | nil => simp [isPrefixOfCI] at h
  | cons c cs =>
    simp only [isPrefixOfCI, Bool.and_eq_true] at h
    exact ⟨c, cs, rfl, h.1⟩

theorem charAt_mem (s : List Char) (j : Nat) (c : Char) (h : charAt s j = some c) :
    c ∈ s := by
  unfold charAt at h
  cases hd : s.drop j with
  | nil => rw [hd] at h; cases h
  | cons a t =>
    rw [hd] at h
    have hca : c = a := by simpa using h.symm
    subst hca
    exact List.drop_subset j s (by rw [hd]; exact List.mem_cons_self _ _)

theorem isPrefixAtCI_first_char (p : Char) (ps s : List Char) (j : Nat)
    (h : isPrefixAtCI (p :: ps) s j = true) :
    ∃ c, c ∈ s ∧ charEqCI p c = true := by
  unfold isPrefixAtCI at h
  obtain ⟨c, cs, hdrop, hci⟩ := isPrefixOfCI_head p ps (s.drop j) h
  refine ⟨c, ?_, hci⟩
  exact List.drop_subset j s (by rw [hdrop]; exact List.mem_cons_self _ _)

theorem matchSingleLine_isPrefix (pref s g : List Char)
    (h : matchSingleLine pref s = some g) : ∃ j, isPrefixAtCI pref s j = true := by
  obtain ⟨j, hj⟩ := scanLeftmost_some _ _ _ _ h
  refine ⟨j, ?_⟩
  unfold singleLineMatchAt at hj
  split at hj
  · assumption
  · cases hj

theorem matchMultiLineStart_opener (s o g : List Char)
    (h : matchMultiLineStart s = some (o, g)) :
    ∃ j opener, opener ∈ ["/*".toList, "<!--".toList] ∧
      isPrefixAtCI opener s j = true := by
  obtain ⟨j, hj⟩ := scanLeftmost_some _ _ _ _ h
  unfold multiLineStartMatchAt at hj
  cases hf : ["/*".toList, "<!--".toList].find? (fun o => isPrefixAtCI o s j) with
  | none => rw [hf] at hj; cases hj
  | some opener =>
    exact ⟨j, opener, List.mem_of_find?_eq_some hf,
      List.find?_some (p := fun o => isPrefixAtCI o s j) hf⟩

theorem matchWithinComment_opener (pref s o g : List Char)
    (h : matchWithinComment pref s = some (o, g)) :
    ∃ j, isPrefixAtCI pref s j = true ∨ isPrefixAtCI "/*".toList s j = true ∨
      isPrefixAtCI "<!--".toList s j = true := by
  obtain ⟨j, hj⟩ := scanLeftmost_some _ _ _ _ h
  refine ⟨j, ?_⟩
  unfold withinCommentMatchAt at hj
  cases hb1 : (if isPrefixAtCI pref s j then contWithin s (j + pref.length) else none) with
  | some g1 =>
    split at hb1
    · left; assumption
    · cases hb1
  | none =>
    rw [hb1] at hj
    cases hb2 : (if isPrefixAtCI "/*".toList s j then contWithin s (j + 2) else none) with
    | some g2 =>
      split at hb2
      · right; left; assumption
      · cases hb2
    | none =>
      rw [hb2] at hj
      cases hb3 : (if isPrefixAtCI "<!--".toList s j then contWithin s (j + 4) else none) with
      | some g3 =>
        split at hb3
        · right; right; assumption
        · cases hb3
      | none => rw [hb3] at hj; cases hj

theorem matchAfterCode_punct (s g : List Char) (h : matchAfterCode s = some g) :
    ∃ j c, charAt s j = some c ∧
      (c == ';' || c == Char.ofNat 125 || c == ')') = true := by
  obtain ⟨j, hj⟩ := scanLeftmost_some _ _ _ _ h
  unfold afterCodeMatchAt at hj
  cases hc : charAt s j with
  | none => simp [hc] at hj
  | some c =>
    simp only [hc] at hj
    split at hj
    · rename_i hcond
      exact ⟨j, c, hc, hcond⟩
    · cases hj

theorem suffix_all_length_le (p : Char → Bool) (s g : List Char) (j : Nat)
    (hsuf : g = s.drop j) (hall : g.all p = true) :
    g.length ≤ leadingCount p s.reverse := by
  have hrs : s.reverse = g.reverse ++ (s.take j).reverse := by
    conv_lhs => rw [← List.take_append_drop j s]
    rw [List.reverse_append, ← hsuf]
  rw [hrs]
  have hrev : g.reverse.all p = true := by
    rw [List.all_reverse]
    exact hall
  calc g.length = g.reverse.length := (List.length_reverse g).symm
    _ ≤ leadingCount p (g.reverse ++ (s.take j).reverse) :=
        all_append_le_leadingCount p g.reverse _ hrev

/-- C5 counterexample: `"hello world"` is a line of lowercase prose with no
trailing uppercase token, yet `analyzeCommentContext` (javascript) returns
`shouldSuggest = true` — the `$`-anchored end-of-line pattern carries the
`i` flag, so the lowercase token `world` matches `[A-Z_]+`. -/
theorem analyze_lowercase_prose_suggests :
    ("hello world".toList.all (fun c => decide (c ∈ lowercaseProseChars)) = true)
    ∧ (analyzeCommentContext [] "hello world".toList "javascript").shouldSuggest = true :=
  ⟨by decide, by decide⟩

/-- C5 (amended): because the pattern checks are case-insensitive, a
lowercase prose line suppresses suggestions only when its trailing
letter/underscore token is shorter than 3 characters: for every input made
of lowercase letters and spaces whose trailing token has length < 3,
`shouldSuggest = false`; and the concrete context `"doSomething();"`
(javascript) also yields `shouldSuggest = false`. -/
theorem analyze_lowercase_suppression :
    (∀ text : List Char,
      (∀ c ∈ text, c ∈ lowercaseProseChars) →
      leadingCount isTagChar text.reverse < 3 →
      (analyzeCommentContext [] text "javascript").shouldSuggest = false)
    ∧ (analyzeCommentContext [] "doSomething();".toList "javascript").shouldSuggest = false := by
  constructor
  · intro text hchars htrail
    have hcp : (getCommentPrefix [] "javascript").data = ['/', '/'] := by decide
    have hslash : ∀ c ∈ lowercaseProseChars, charEqCI '/' c = false := by decide
    have hlt : ∀ c ∈ lowercaseProseChars, charEqCI '<' c = false := by decide
    have h1 : matchSingleLine ['/', '/'] text = none := by
      cases hm : matchSingleLine ['/', '/'] text with
      | none => rfl
      | some g =>
        exfalso
        obtain ⟨j, hj⟩ := matchSingleLine_isPrefix _ _ _ hm
        obtain ⟨c, hcm, hci⟩ := isPrefixAtCI_first_char '/' ['/'] text j hj
        rw [hslash c (hchars c hcm)] at hci
        exact Bool.false_ne_true hci
    have h2 : matchMultiLineStart text = none := by
      cases hm : matchMultiLineStart text with
      | none => rfl
      | some og =>
        exfalso
        obtain ⟨j, opener, hop, hj⟩ := matchMultiLineStart_opener text og.1 og.2
          (by rw [← hm])
        simp only [List.mem_cons, List.not_mem_nil, or_false] at hop
        rcases hop with rfl | rfl
        · obtain ⟨c, hcm, hci⟩ := isPrefixAtCI_first_char _ _ text j hj
          rw [hslash c (hchars c hcm)] at hci
          exact Bool.false_ne_true hci
        · obtain ⟨c, hcm, hci⟩ := isPrefixAtCI_first_char _ _ text j hj
          rw [hlt c (hchars c hcm)] at hci
          exact Bool.false_ne_true hci
    have h3 : matchWithinComment ['/', '/'] text = none := by
      cases hm : matchWithinComment ['/', '/'] text with
      | none => rfl
      | some og =>
        exfalso
        obtain ⟨j, hj⟩ := matchWithinComment_opener _ text og.1 og.2 (by rw [← hm])
        rcases hj with hj | hj | hj
        · obtain ⟨c, hcm, hci⟩ := isPrefixAtCI_first_char '/' ['/'] text j hj
          rw [hslash c (hchars c hcm)] at hci
          exact Bool.false_ne_true hci
        · obtain ⟨c, hcm, hci⟩ := isPrefixAtCI_first_char _ _ text j hj
          rw [hslash c (hchars c hcm)] at hci
          exact Bool.false_ne_true hci
        · obtain ⟨c, hcm, hci⟩ := isPrefixAtCI_first_char _ _ text j hj
          rw [hlt c (hchars c hcm)] at hci
          exact Bool.false_ne_true hci
    have h4 : matchAfterCode text = none := by
      cases hm : matchAfterCode text with
      | none => rfl
      | some g =>
        exfalso
        obtain ⟨j, c, hc, hcond⟩ := matchAfterCode_punct text g hm
        have hcm := hchars c (charAt_mem text j c hc)
        have : ∀ c ∈ lowercaseProseChars,
            (c == ';' || c == Char.ofNat 125 || c == ')') = false := by decide
        rw [this c hcm] at hcond
        exact Bool.false_ne_true hcond
    cases h5 : matchEndOfLine text with
    | none => simp [analyzeCommentContext, hcp, h1, h2, h3, h4, h5]
    | some g =>
      obtain ⟨hall, _, j, hsuf⟩ := matchEndOfLine_spec text g h5
      have hle := suffix_all_length_le isTagChar text g j hsuf hall
      have hshort : ¬ 3 ≤ g.length := by omega
      simp [analyzeCommentContext, hcp, h1, h2, h3, h4, h5, hshort]
  · decide

/-- Witness for the amended C5: `"hi wo"` is lowercase prose with a
two-character trailing token; no suggestion is offered. -/
theorem analyze_lowercase_suppression_witness :
    (∀ c ∈ "hi wo".toList, c ∈ lowercaseProseChars)
    ∧ leadingCount isTagChar "hi wo".toList.reverse < 3
    ∧ (analyzeCommentContext [] "hi wo".toList "javascript").shouldSuggest = false :=
  ⟨by decide, by decide,
   analyze_lowercase_suppression.1 "hi wo".toList (by decide) (by decide)⟩

/-! ## C2: single-line highlight ranges -/

theorem findTagPos_spec (tag s : List Char) (base : Nat) :
    ∀ (m tp : Nat), findTagPos tag s base m = some tp →
      base ≤ tp ∧ tp ≤ base + m ∧ isPrefixAt tag s tp = true := by
  intro m
  induction m with
  | zero =>
    intro tp h
    simp only [findTagPos] at h
    split at h
    · obtain rfl := Option.some.inj h
      exact ⟨Nat.le_refl _, by omega, by assumption⟩
    · cases h
  | succ m ih =>
    intro tp h
    simp only [findTagPos] at h
    split at h
    · obtain rfl := Option.some.inj h
      exact ⟨by omega, by omega, by assumption⟩
    · obtain ⟨h1, h2, h3⟩ := ih tp h
      exact ⟨h1, by omega, h3⟩

theorem tryMatchAt_spec (tag s : List Char) (i : Nat) (marker : List Char)
    (tp e : Nat) (h : tryMatchAt tag s i = some (marker, tp, e)) :
    marker ∈ SINGLE_LINE_COMMENT_PREFIXES ∧
    isPrefixAt marker s (skipWs s i) = true ∧
    skipWs s i + marker.length ≤ tp ∧
    tp ≤ skipWs s i + marker.length + leadingWs (s.drop (skipWs s i + marker.length)) ∧
    isPrefixAt tag s tp = true ∧
    e = tp + tag.length := by
  simp only [tryMatchAt] at h
  cases hf : SINGLE_LINE_COMMENT_PREFIXES.find? (fun p => isPrefixAt p s (skipWs s i)) with
  | none => rw [hf] at h; cases h
  | some mk =>
    simp only [hf] at h
    cases hft : findTagPos tag s (skipWs s i + mk.length)
        (leadingWs (s.drop (skipWs s i + mk.length))) with
    | none => rw [hft] at h; cases h
    | some tp' =>
      simp only [hft] at h
      have heq := Option.some.inj h
      rw [Prod.mk.injEq, Prod.mk.injEq] at heq
      obtain ⟨rfl, rfl, rfl⟩ := heq
      have hmem := List.mem_of_find?_eq_some hf
      have hpre := List.find?_some (p := fun p => isPrefixAt p s (skipWs s i)) hf
      have hft' := findTagPos_spec tag s _ _ _ hft
      refine ⟨hmem, hpre, hft'.1, ?_, hft'.2.2, rfl⟩
      have := hft'.2.1
      omega

theorem findMatchFrom_some (tag s : List Char) :
    ∀ (fuel i j : Nat) (marker : List Char) (tp e : Nat),
      findMatchFrom tag s fuel i = some (j, marker, tp, e) →
      tryMatchAt tag s j = some (marker, tp, e) := by
  intro fuel
  induction fuel with
  | zero => intro i j marker tp e h; simp [findMatchFrom] at h
  | succ fuel ih =>
    intro i j marker tp e h
    simp only [findMatchFrom] at h
    cases ht : tryMatchAt tag s i with
    | some r =>
      obtain ⟨rm, rtp, re⟩ := r
      rw [ht] at h
      have heq := Option.some.inj h
      rw [Prod.mk.injEq, Prod.mk.injEq, Prod.mk.injEq] at heq
      obtain ⟨rfl, rfl, rfl, rfl⟩ := heq
      exact ht
    | none =>
      rw [ht] at h
      exact ih (i + 1) j marker tp e h

theorem slMatches_mem (tag s : List Char) :
    ∀ (fuel pos : Nat) (m : Nat × List Char × Nat × Nat),
      m ∈ slMatches tag s fuel pos → tryMatchAt tag s m.1 = some m.2 := by
  intro fuel
  induction fuel with
  | zero => intro pos m h; simp [slMatches] at h
  | succ fuel ih =>
    intro pos m h
    simp only [slMatches] at h
    cases hf : findMatchFrom tag s (s.length + 1 - pos) pos with
    | none => rw [hf] at h; simp at h
    | some r =>
      obtain ⟨i, marker, tp, e⟩ := r
      rw [hf] at h
      rcases List.mem_cons.mp h with rfl | hmem
      · exact findMatchFrom_some tag s _ _ _ _ _ _ hf
      · exact ih e m hmem

theorem indexOfList_of_isPrefixOf (pat l : List Char)
    (hp : pat.isPrefixOf l = true) : indexOfList pat l = 0 := by
  rw [indexOfList.eq_def]
  simp [hp]

theorem indexOfList_cons_of_not (pat : List Char) (c : Char) (t : List Char)
    (h : pat.isPrefixOf (c :: t) = false) :
    indexOfList pat (c :: t) = indexOfList pat t + 1 := by
  rw [indexOfList.eq_def]
  simp [h]

theorem indexOfList_ws_append (w pat l : List Char)
    (hw : ∀ c ∈ w, isJsWhitespace c = true) (hne : pat ≠ [])
    (hh : ∀ c, pat.head? = some c → isJsWhitespace c = false)
    (hp : pat.isPrefixOf l = true) :
    indexOfList pat (w ++ l) = w.length := by
  induction w with
  | nil =>
    simp only [List.nil_append, List.length_nil]
    exact indexOfList_of_isPrefixOf pat l hp
  | cons c t ih =>
    have hnotpre : pat.isPrefixOf (c :: (t ++ l)) = false := by
      cases pat with
      | nil => exact absurd rfl hne
      | cons p pt =>
        have hpcne : p ≠ c := by
          intro hpc
          have hpw : isJsWhitespace p = false := hh p rfl
          have hcw : isJsWhitespace c = true := hw c (List.mem_cons_self c t)
          rw [hpc, hcw] at hpw
          cases hpw
        have hbeq : (p == c) = false := beq_eq_false_iff_ne.mpr hpcne
        show ((p == c) && pt.isPrefixOf (t ++ l)) = false
        rw [hbeq]
        rfl
    rw [List.cons_append, indexOfList_cons_of_not pat c (t ++ l) hnotpre]
    rw [ih (fun x hx => hw x (List.mem_cons_of_mem c hx))]
    rfl

theorem isPrefixAt_head_char (p : Char) (ps s : List Char) (k : Nat)
    (h : isPrefixAt (p :: ps) s k = true) : charAt s k = some p := by
  unfold isPrefixAt at h
  cases hd : s.drop k with
  | nil => rw [hd] at h; simp [List.isPrefixOf] at h
  | cons b bs =>
    rw [hd] at h
    simp only [List.isPrefixOf, Bool.and_eq_true, beq_iff_eq] at h
    unfold charAt
    rw [hd]
    simp [h.1]

theorem slMatch_highlightStart (tag s : List Char) (i : Nat) (marker : List Char)
    (tp e : Nat) (h : tryMatchAt tag s i = some (marker, tp, e)) :
    i + indexOfList marker ((s.drop i).take (tp - i)) = skipWs s i := by
  obtain ⟨hmem, hpre, hlo, hhi, htag, hee⟩ := tryMatchAt_spec tag s i marker tp e h
  have hik : i ≤ skipWs s i := by unfold skipWs; omega
  have hki : skipWs s i - i = leadingWs (s.drop i) := by unfold skipWs; omega
  have hmlen : 1 ≤ marker.length := by
    have hall : ∀ mk ∈ SINGLE_LINE_COMMENT_PREFIXES, 1 ≤ mk.length := by decide
    exact hall marker hmem
  have hsplit : (s.drop i).take (tp - i) =
      (s.drop i).take (skipWs s i - i) ++ (s.drop (skipWs s i)).take (tp - skipWs s i) := by
    have h1 : tp - i = (skipWs s i - i) + (tp - skipWs s i) := by omega
    have h2 : (s.drop i).drop (skipWs s i - i) = s.drop (skipWs s i) := by
      rw [List.drop_drop]
      congr 1
      omega
    rw [h1, List.take_add, h2]
  rw [hsplit]
  have hwall : ∀ c ∈ (s.drop i).take (skipWs s i - i), isJsWhitespace c = true := by
    rw [hki]
    exact take_leadingCount_all isJsWhitespace (s.drop i) _ (Nat.le_of_eq rfl)
  have hne : marker ≠ [] := by
    intro hnil
    rw [hnil] at hmlen
    simp at hmlen
  have hhead : ∀ c, marker.head? = some c → isJsWhitespace c = false := by
    have hall : ∀ mk ∈ SINGLE_LINE_COMMENT_PREFIXES,
        ∀ c, mk.head? = some c → isJsWhitespace c = false := by decide
    exact hall marker hmem
  have hpre' : marker.isPrefixOf ((s.drop (skipWs s i)).take (tp - skipWs s i)) = true := by
    apply isPrefixOf_take
    · exact hpre
    · omega
  rw [indexOfList_ws_append _ marker _ hwall hne hhead hpre']
  rw [List.length_take, List.length_drop]
  have hlelen : leadingWs (s.drop i) ≤ (s.drop i).length := leadingCount_le_length _ _
  rw [List.length_drop] at hlelen
  omega

/-- C2: every range produced by the single-line pass starts at the first
character of the matched comment marker (one of `//`, `#`, `--`) — hence not
at any preceding whitespace — and ends exactly at the end of the source
line containing that marker. -/
theorem singleLineRanges_marker_eol (tag s : List Char) (r : Nat × Nat)
    (hr : r ∈ singleLineRanges tag s) :
    (∃ marker, marker ∈ SINGLE_LINE_COMMENT_PREFIXES ∧
      isPrefixAt marker s r.1 = true)
    ∧ (∀ c, charAt s r.1 = some c → isJsWhitespace c = false)
    ∧ r.2 = lineEnd s r.1 := by
  unfold singleLineRanges at hr
  obtain ⟨m, hm, hfm⟩ := List.mem_filterMap.mp hr
  obtain ⟨i, marker, tp, e⟩ := m
  have hmatch := slMatches_mem tag s (s.length + 1) 0 _ hm
  simp only at hfm hmatch
  split at hfm
  case isFalse => cases hfm
  case isTrue hle =>
    have heq := Option.some.inj hfm
    have hstart := slMatch_highlightStart tag s i marker tp e hmatch
    obtain ⟨hmem, hpre, _, _, _, _⟩ := tryMatchAt_spec tag s i marker tp e hmatch
    subst heq
    refine ⟨⟨marker, hmem, ?_⟩, ?_, rfl⟩
    · simp only
      rw [hstart]
      exact hpre
    · intro c hc
      simp only at hc
      rw [hstart] at hc
      cases hmk : marker with
      | nil =>
        rw [hmk] at hmem
        have : (([] : List Char) ∈ SINGLE_LINE_COMMENT_PREFIXES) = False := by decide
        rw [this] at hmem
        cases hmem
      | cons p ps =>
        rw [hmk] at hpre
        have := isPrefixAt_head_char p ps s (skipWs s i) hpre
        rw [this] at hc
        have hcp : c = p := by simpa using hc.symm
        subst hcp
        have hhead : ∀ mk ∈ SINGLE_LINE_COMMENT_PREFIXES,
            ∀ c, mk.head? = some c → isJsWhitespace c = false := by decide
        exact hhead marker hmem c (by rw [hmk]; rfl)

/-- Witness for C2, concrete scenario A: `// TODO: fix this` yields the one
range from the `//` marker (offset 0) to the end of the line (offset 17). -/
theorem singleLineRanges_marker_eol_witness :
    ((0, 17) ∈ singleLineRanges "TODO:".toList "// TODO: fix this".toList)
    ∧ ((∃ marker, marker ∈ SINGLE_LINE_COMMENT_PREFIXES ∧
        isPrefixAt marker "// TODO: fix this".toList (0, 17).1 = true)
      ∧ (∀ c, charAt "// TODO: fix this".toList (0, 17).1 = some c →
          isJsWhitespace c = false)
      ∧ (0, 17).2 = lineEnd "// TODO: fix this".toList (0, 17).1) :=
  ⟨by decide,
   singleLineRanges_marker_eol "TODO:".toList "// TODO: fix this".toList (0, 17) (by decide)⟩

/-! ## C3: multi-line block ranges -/

theorem firstFrom_spec (pat s : List Char) :
    ∀ (fuel j c : Nat), firstFrom pat s fuel j = some c →
      j ≤ c ∧ isPrefixAt pat s c = true ∧
      ∀ c', j ≤ c' → c' < c → isPrefixAt pat s c' = false := by
  intro fuel
  induction fuel with
  | zero => intro j c h; simp [firstFrom] at h
  | succ fuel ih =>
    intro j c h
    simp only [firstFrom] at h
    split at h
    · obtain rfl := Option.some.inj h
      exact ⟨Nat.le_refl _, by assumption, fun c' h1 h2 => absurd h1 (by omega)⟩
    · rename_i hneg
      obtain ⟨h1, h2, h3⟩ := ih (j + 1) c h
      refine ⟨by omega, h2, ?_⟩
      intro c' hc1 hc2
      by_cases hcc : c' = j
      · subst hcc
        simpa using hneg
      · exact h3 c' (by omega) hc2

theorem tryTagGreedyML_spec (tag closer s : List Char) (oe : Nat) :
    ∀ (m0 tp e : Nat), tryTagGreedyML tag closer s oe m0 = some (tp, e) →
      ∃ m, m ≤ m0 ∧ tp = oe + m ∧ isPrefixAt tag s tp = true ∧
        ∃ c, firstFrom closer s (s.length + 1 - (tp + tag.length))
            (tp + tag.length) = some c ∧
          e = c + closer.length := by
  intro m0
  induction m0 with
  | zero =>
    intro tp e h
    simp only [tryTagGreedyML] at h
    split at h
    · rename_i hcond
      cases hff : firstFrom closer s (s.length + 1 - (oe + tag.length))
          (oe + tag.length) with
      | some c =>
        simp only [hff] at h
        have heq := Option.some.inj h
        rw [Prod.mk.injEq] at heq
        obtain ⟨rfl, rfl⟩ := heq
        exact ⟨0, Nat.le_refl _, by omega, by simpa using hcond, c, by simpa using hff, rfl⟩
      | none => simp only [hff] at h; cases h
    · cases h
  | succ m ih =>
    intro tp e h
    simp only [tryTagGreedyML] at h
    split at h
    · rename_i hcond
      cases hff : firstFrom closer s (s.length + 1 - (oe + (m + 1) + tag.length))
          (oe + (m + 1) + tag.length) with
      | some c =>
        simp only [hff] at h
        have heq := Option.some.inj h
        rw [Prod.mk.injEq] at heq
        obtain ⟨rfl, rfl⟩ := heq
        exact ⟨m + 1, Nat.le_refl _, rfl, hcond, c, hff, rfl⟩
      | none =>
        simp only [hff] at h
        obtain ⟨mm, hmm, rest⟩ := ih tp e h
        exact ⟨mm, by omega, rest⟩
    · obtain ⟨mm, hmm, rest⟩ := ih tp e h
      exact ⟨mm, by omega, rest⟩

theorem tryMatchMLAt_spec (tag opener closer s : List Char) (i e : Nat)
    (h : tryMatchMLAt tag opener closer s i = some e) :
    isPrefixAt opener s i = true ∧
    ∃ m c, m ≤ leadingWs (s.drop (i + opener.length)) ∧
      isPrefixAt tag s (i + opener.length + m) = true ∧
      i + opener.length + m + tag.length ≤ c ∧
      isPrefixAt closer s c = true ∧
      (∀ c', i + opener.length + m + tag.length ≤ c' → c' < c →
        isPrefixAt closer s c' = false) ∧
      e = c + closer.length := by
  simp only [tryMatchMLAt] at h
  split at h
  · rename_i hop
    cases hg : tryTagGreedyML tag closer s (i + opener.length)
        (leadingWs (s.drop (i + opener.length))) with
    | none => simp only [hg] at h; cases h
    | some rr =>
      obtain ⟨tp, e'⟩ := rr
      simp only [hg] at h
      obtain rfl := Option.some.inj h
      obtain ⟨m, hm, rfl, htag, c, hc, rfl⟩ :=
        tryTagGreedyML_spec tag closer s _ _ tp _ hg
      obtain ⟨hjc, hcpre, hmin⟩ := firstFrom_spec closer s _ _ _ hc
      exact ⟨hop, m, c, hm, htag, hjc, hcpre, hmin, rfl⟩
  · cases h

theorem findMLFrom_some (tag opener closer s : List Char) :
    ∀ (fuel i j e : Nat), findMLFrom tag opener closer s fuel i = some (j, e) →
      tryMatchMLAt tag opener closer s j = some e := by
  intro fuel
  induction fuel with
  | zero => intro i j e h; simp [findMLFrom] at h
  | succ fuel ih =>
    intro i j e h
    simp only [findMLFrom] at h
    cases ht : tryMatchMLAt tag opener closer s i with
    | some e' =>
      rw [ht] at h
      have heq := Option.some.inj h
      rw [Prod.mk.injEq] at heq
      obtain ⟨rfl, rfl⟩ := heq
      exact ht
    | none =>
      rw [ht] at h
      exact ih (i + 1) j e h

theorem mlMatches_mem (tag opener closer s : List Char) :
    ∀ (fuel pos : Nat) (p : Nat × Nat),
      p ∈ mlMatches tag opener closer s fuel pos →
      tryMatchMLAt tag opener closer s p.1 = some p.2 := by
  intro fuel
  induction fuel with
  | zero => intro pos p h; simp [mlMatches] at h
  | succ fuel ih =>
    intro pos p h
    simp only [mlMatches] at h
    cases hf : findMLFrom tag opener closer s (s.length + 1 - pos) pos with
    | none => rw [hf] at h; simp at h
    | some rr =>
      obtain ⟨i, e⟩ := rr
      rw [hf] at h
      rcases List.mem_cons.mp h with rfl | hmem
      · exact findMLFrom_some tag opener closer s _ _ _ _ hf
      · exact ih e p hmem

/-- C3: every range produced by the multi-line pass for a delimiter pair
starts at an occurrence of the opening delimiter; the tag sits immediately
after the opener plus an (all-whitespace) optional run; and the range ends
exactly at the nearest occurrence of the closing delimiter at or after the
tag end — no earlier position at or after the tag end carries the closer,
so the range never extends past the first valid closer. -/
theorem multiLineRanges_block_spec (tag : List Char)
    (pattern : MultiLineCommentPattern)
    (hpat : pattern ∈ MULTI_LINE_COMMENT_PATTERNS) (s : List Char)
    (r : Nat × Nat) (hr : r ∈ multiLineRangesForPattern tag pattern s) :
    isPrefixAt pattern.startDelimiter s r.1 = true ∧
    ∃ m c, m ≤ leadingWs (s.drop (r.1 + pattern.startDelimiter.length)) ∧
      (∀ ch ∈ (s.drop (r.1 + pattern.startDelimiter.length)).take m,
        isJsWhitespace ch = true) ∧
      isPrefixAt tag s (r.1 + pattern.startDelimiter.length + m) = true ∧
      r.1 + pattern.startDelimiter.length + m + tag.length ≤ c ∧
      isPrefixAt pattern.endDelimiter s c = true ∧
      (∀ c', r.1 + pattern.startDelimiter.length + m + tag.length ≤ c' →
        c' < c → isPrefixAt pattern.endDelimiter s c' = false) ∧
      r.2 = c + pattern.endDelimiter.length := by
  unfold multiLineRangesForPattern at hr
  split at hr
  · have hmm := mlMatches_mem tag pattern.startDelimiter pattern.endDelimiter s
      (s.length + 1) 0 r hr
    obtain ⟨hop, m, c, hm, htag, hle, hcpre, hmin, he⟩ :=
      tryMatchMLAt_spec tag pattern.startDelimiter pattern.endDelimiter s r.1 r.2 hmm
    refine ⟨hop, m, c, hm, ?_, htag, hle, hcpre, hmin, he⟩
    exact take_leadingCount_all isJsWhitespace _ m hm
  · simp at hr

/-- Witness for C3, concrete scenario B: `/* FIXME: needs work */` yields
the one block range from the opener at offset 0 through the closer ending
at offset 23 for the c-style pattern. -/
theorem multiLineRanges_block_spec_witness :
    ((MultiLineCommentPattern.mk "c-style" "/*".toList "*/".toList true) ∈
      MULTI_LINE_COMMENT_PATTERNS)
    ∧ ((0, 23) ∈ multiLineRangesForPattern "FIXME:".toList
        (MultiLineCommentPattern.mk "c-style" "/*".toList "*/".toList true)
        "/* FIXME: needs work */".toList)
    ∧ (isPrefixAt (MultiLineCommentPattern.mk "c-style" "/*".toList "*/".toList
          true).startDelimiter "/* FIXME: needs work */".toList (0, 23).1 = true
      ∧ ∃ m c, m ≤ leadingWs ("/* FIXME: needs work */".toList.drop
            ((0, 23).1 + (MultiLineCommentPattern.mk "c-style" "/*".toList
              "*/".toList true).startDelimiter.length)) ∧
        (∀ ch ∈ ("/* FIXME: needs work */".toList.drop
            ((0, 23).1 + (MultiLineCommentPattern.mk "c-style" "/*".toList
              "*/".toList true).startDelimiter.length)).take m,
          isJsWhitespace ch = true) ∧
        isPrefixAt "FIXME:".toList "/* FIXME: needs work */".toList
          ((0, 23).1 + (MultiLineCommentPattern.mk "c-style" "/*".toList
            "*/".toList true).startDelimiter.length + m) = true ∧
        (0, 23).1 + (MultiLineCommentPattern.mk "c-style" "/*".toList
          "*/".toList true).startDelimiter.length + m + "FIXME:".toList.length ≤ c ∧
        isPrefixAt (MultiLineCommentPattern.mk "c-style" "/*".toList
          "*/".toList true).endDelimiter "/* FIXME: needs work */".toList c = true ∧
        (∀ c', (0, 23).1 + (MultiLineCommentPattern.mk "c-style" "/*".toList
            "*/".toList true).startDelimiter.length + m + "FIXME:".toList.length ≤ c' →
          c' < c → isPrefixAt (MultiLineCommentPattern.mk "c-style" "/*".toList
            "*/".toList true).endDelimiter "/* FIXME: needs work */".toList c' = false) ∧
        (0, 23).2 = c + (MultiLineCommentPattern.mk "c-style" "/*".toList
          "*/".toList true).endDelimiter.length) :=
  ⟨by decide, by decide,
   multiLineRanges_block_spec "FIXME:".toList
     (MultiLineCommentPattern.mk "c-style" "/*".toList "*/".toList true)
     (by decide) "/* FIXME: needs work */".toList (0, 23) (by decide)⟩

end CommentChameleon
